import Mathlib

/-!
# Verification of cc-wf-studio core subsystems

Shallow embedding of the TypeScript sources of `cc-wf-studio`:

* `src/extension/services/claude-code-service.ts` — generation orchestrator
  (offline stubbed execution), result extractor `parseClaudeCodeOutput`,
  process registry with `cancelGeneration` / `cancelRefinement`;
* `src/extension/services/file-service.ts` — storage-root resolution;
* the load-workflow command (multi-root lookup precedence);
* `src/extension/commands/load-workflow-list.ts` — merged, de-duplicated,
  sorted workflow listing;
* `src/config/offline.config.js` — the offline configuration constant.

The JavaScript `JSON.parse` / `JSON.stringify` library functions are modelled
by an executable JSON syntax tree (`Jval`), a serializer (`stringifyVal`) and
a fueled recursive-descent parser (`parseVal` / `jsonParse`).  The parser
accepts the whitespace-free JSON subset that `JSON.stringify` emits (the
extractor always trims its candidate text before parsing, so this models the
call sites exactly); string escapes cover the quote, backslash and common
control escapes that the serializer produces.
-/

/-! ## Character classes -/

/-- JavaScript whitespace relevant to `String.prototype.trim` on the strings
occurring here (space, newline, tab, carriage return). -/
def isWsChar (c : Char) : Bool :=
  c = ' ' || c = '\n' || c = '\t' || c = '\r'

/-- ASCII decimal digit test, kept as a ten-way table so that every fact about
it is a finite case split. -/
def isDigitCh (c : Char) : Bool :=
  c = '0' || c = '1' || c = '2' || c = '3' || c = '4' ||
  c = '5' || c = '6' || c = '7' || c = '8' || c = '9'

/-- Digit value of a decimal digit character (0 for non-digits). -/
def digitVal (c : Char) : Nat :=
  if c = '0' then 0 else if c = '1' then 1 else if c = '2' then 2
  else if c = '3' then 3 else if c = '4' then 4 else if c = '5' then 5
  else if c = '6' then 6 else if c = '7' then 7 else if c = '8' then 8
  else if c = '9' then 9 else 0

/-- Character for a digit value below ten. -/
def digitChar (d : Nat) : Char :=
  if d = 0 then '0' else if d = 1 then '1' else if d = 2 then '2'
  else if d = 3 then '3' else if d = 4 then '4' else if d = 5 then '5'
  else if d = 6 then '6' else if d = 7 then '7' else if d = 8 then '8'
  else '9'

/-! ## JSON values

`Jval` models the JavaScript JSON data model with integer numbers (every
numeric literal appearing in the repository is integral).  Arrays and objects
are mutually inductive lists so that structural mutual recursion and induction
are available. -/

mutual

inductive Jval where
  | jnull : Jval
  | jbool (b : Bool) : Jval
  | jnum (n : Int) : Jval
  | jstr (s : List Char) : Jval
  | jarr (xs : JvalList) : Jval
  | jobj (kvs : JvalObj) : Jval

inductive JvalList where
  | nil : JvalList
  | cons (hd : Jval) (tl : JvalList) : JvalList

inductive JvalObj where
  | nil : JvalObj
  | cons (k : List Char) (v : Jval) (tl : JvalObj) : JvalObj

end

deriving instance DecidableEq for Jval

/-! ## Serializer (model of `JSON.stringify`) -/

/-- Decimal digit string of a natural number, most significant digit first. -/
def natChars (n : Nat) : List Char :=
  if n = 0 then ['0'] else ((Nat.digits 10 n).map digitChar).reverse

/-- Escape of one character inside a JSON string literal, as produced by
`JSON.stringify`: quote, backslash, and the common control escapes get a
backslash form; every other character is emitted verbatim. -/
def escChar (c : Char) : List Char :=
  if c = '"' then ['\\', '"']
  else if c = '\\' then ['\\', '\\']
  else if c = '\n' then ['\\', 'n']
  else if c = '\t' then ['\\', 't']
  else if c = '\r' then ['\\', 'r']
  else [c]

/-- Escape of a whole string body. -/
def escList : List Char → List Char
  | [] => []
  | c :: cs => escChar c ++ escList cs

mutual

/-- Serialization of a JSON value, exactly as `JSON.stringify` renders it:
no whitespace, keys in insertion order. -/
def stringifyVal : Jval → List Char
  | .jnull => ['n', 'u', 'l', 'l']
  | .jbool true => ['t', 'r', 'u', 'e']
  | .jbool false => ['f', 'a', 'l', 's', 'e']
  | .jnum n => if n < 0 then '-' :: natChars n.natAbs else natChars n.toNat
  | .jstr s => '"' :: (escList s ++ ['"'])
  | .jarr xs => '[' :: (stringifyArr xs ++ [']'])
  | .jobj kvs => '{' :: (stringifyObj kvs ++ ['}'])

/-- Comma-separated array elements. -/
def stringifyArr : JvalList → List Char
  | .nil => []
  | .cons v vs => stringifyVal v ++ stringifyArrRest vs

/-- Elements after the first, each preceded by a comma. -/
def stringifyArrRest : JvalList → List Char
  | .nil => []
  | .cons v vs => ',' :: (stringifyVal v ++ stringifyArrRest vs)

/-- One `"key":value` member. -/
def stringifyMember (k : List Char) (v : Jval) : List Char :=
  '"' :: (escList k ++ '"' :: ':' :: stringifyVal v)

/-- Comma-separated object members. -/
def stringifyObj : JvalObj → List Char
  | .nil => []
  | .cons k v kvs => stringifyMember k v ++ stringifyObjRest kvs

/-- Members after the first, each preceded by a comma. -/
def stringifyObjRest : JvalObj → List Char
  | .nil => []
  | .cons k v kvs => ',' :: (stringifyMember k v ++ stringifyObjRest kvs)

end

/-! ## Parser (model of `JSON.parse`) -/

/-- Strip an expected literal prefix. -/
def stripPfx : List Char → List Char → Option (List Char)
  | [], s => some s
  | _ :: _, [] => none
  | p :: ps, c :: cs => if c = p then stripPfx ps cs else none

/-- Decode the character after a backslash in a JSON string literal. -/
def unescChar (c : Char) : Option Char :=
  if c = '"' then some '"'
  else if c = '\\' then some '\\'
  else if c = '/' then some '/'
  else if c = 'n' then some '\n'
  else if c = 't' then some '\t'
  else if c = 'r' then some '\r'
  else none

/-- Parse the body of a JSON string literal after the opening quote, up to and
including the closing quote; returns the decoded body and the remainder. -/
def parseStringBody : List Char → Option (List Char × List Char)
  | [] => none
  | c :: cs =>
    if c = '"' then some ([], cs)
    else if c = '\\' then
      match cs with
      | [] => none
      | e :: cs' =>
        match unescChar e, parseStringBody cs' with
        | some d, some (body, rest) => some (d :: body, rest)
        | _, _ => none
    else
      match parseStringBody cs with
      | some (body, rest) => some (c :: body, rest)
      | none => none

/-- Parse a nonempty run of decimal digits into its value. -/
def parseNat (s : List Char) : Option (Nat × List Char) :=
  let ds := s.takeWhile isDigitCh
  if ds.isEmpty then none
  else some (ds.foldl (fun a c => a * 10 + digitVal c) 0, s.dropWhile isDigitCh)

mutual

/-- Fueled recursive-descent parse of one JSON value; returns the value and
the unconsumed remainder. -/
def parseVal : Nat → List Char → Option (Jval × List Char)
  | 0, _ => none
  | fuel + 1, s =>
    match s with
    | [] => none
    | c :: cs =>
      if c = '"' then
        match parseStringBody cs with
        | some (body, rest) => some (.jstr body, rest)
        | none => none
      else if c = '[' then parseArrStart fuel cs
      else if c = '{' then parseObjStart fuel cs
      else if c = 'n' then
        match stripPfx ['u', 'l', 'l'] cs with
        | some rest => some (.jnull, rest)
        | none => none
      else if c = 't' then
        match stripPfx ['r', 'u', 'e'] cs with
        | some rest => some (.jbool true, rest)
        | none => none
      else if c = 'f' then
        match stripPfx ['a', 'l', 's', 'e'] cs with
        | some rest => some (.jbool false, rest)
        | none => none
      else if c = '-' then
        match parseNat cs with
        | some (n, rest) => some (.jnum (-(n : Int)), rest)
        | none => none
      else if isDigitCh c then
        match parseNat (c :: cs) with
        | some (n, rest) => some (.jnum (n : Int), rest)
        | none => none
      else none

/-- After `[`: either an immediate `]` or a first element and then the tail. -/
def parseArrStart : Nat → List Char → Option (Jval × List Char)
  | 0, _ => none
  | fuel + 1, s =>
    match s with
    | [] => none
    | c :: cs =>
      if c = ']' then some (.jarr .nil, cs)
      else
        match parseVal fuel (c :: cs) with
        | some (v, r) =>
          match parseArrTail fuel r with
          | some (vs, r') => some (.jarr (.cons v vs), r')
          | none => none
        | none => none

/-- After one array element: either `]` or `,` and a further element. -/
def parseArrTail : Nat → List Char → Option (JvalList × List Char)
  | 0, _ => none
  | fuel + 1, s =>
    match s with
    | [] => none
    | c :: cs =>
      if c = ']' then some (.nil, cs)
      else if c = ',' then
        match parseVal fuel cs with
        | some (v, r) =>
          match parseArrTail fuel r with
          | some (vs, r') => some (.cons v vs, r')
          | none => none
        | none => none
      else none

/-- After `{`: either an immediate `}` or a first member and then the tail. -/
def parseObjStart : Nat → List Char → Option (Jval × List Char)
  | 0, _ => none
  | fuel + 1, s =>
    match s with
    | [] => none
    | c :: cs =>
      if c = '}' then some (.jobj .nil, cs)
      else
        match parseMember fuel (c :: cs) with
        | some (k, v, r) =>
          match parseObjTail fuel r with
          | some (kvs, r') => some (.jobj (.cons k v kvs), r')
          | none => none
        | none => none

/-- After one object member: either `}` or `,` and a further member. -/
def parseObjTail : Nat → List Char → Option (JvalObj × List Char)
  | 0, _ => none
  | fuel + 1, s =>
    match s with
    | [] => none
    | c :: cs =>
      if c = '}' then some (.nil, cs)
      else if c = ',' then
        match parseMember fuel cs with
        | some (k, v, r) =>
          match parseObjTail fuel r with
          | some (kvs, r') => some (.cons k v kvs, r')
          | none => none
        | none => none
      else none

/-- One `"key":value` member. -/
def parseMember : Nat → List Char → Option (List Char × Jval × List Char)
  | 0, _ => none
  | fuel + 1, s =>
    match s with
    | [] => none
    | c :: cs =>
      if c = '"' then
        match parseStringBody cs with
        | some (k, r) =>
          match r with
          | [] => none
          | c' :: r' =>
            if c' = ':' then
              match parseVal fuel r' with
              | some (v, rest) => some (k, v, rest)
              | none => none
            else none
        | none => none
      else none

end

/-- Model of `JSON.parse` at the extractor's call sites: parse one value and
require the whole input consumed; any failure (the JavaScript exception) is
`none`.  The fuel `2 * length + 2` dominates the recursion depth of any parse
of the input. -/
def jsonParse (s : List Char) : Option Jval :=
  match parseVal (2 * s.length + 2) s with
  | some (v, []) => some v
  | _ => none

/-! ## JavaScript string primitives used by the extractor -/

/-- Model of `startsWith` on character lists. -/
def isPfx : List Char → List Char → Bool
  | [], _ => true
  | _ :: _, [] => false
  | a :: as, b :: bs => a = b && isPfx as bs

/-- Model of `endsWith` on character lists. -/
def isSfx (p s : List Char) : Bool :=
  isPfx p.reverse s.reverse

/-- Model of `String.prototype.indexOf` for a nonempty needle: index of the first
occurrence, `none` when absent. -/
def strIndexOf? (pat : List Char) : List Char → Option Nat
  | [] => if isPfx pat [] then some 0 else none
  | c :: t =>
    if isPfx pat (c :: t) then some 0
    else (strIndexOf? pat t).map (· + 1)

/-- Model of `String.prototype.lastIndexOf`: index of the last occurrence. -/
def strLastIndexOf? (pat : List Char) : List Char → Option Nat
  | [] => if isPfx pat [] then some 0 else none
  | c :: t =>
    match strLastIndexOf? pat t with
    | some i => some (i + 1)
    | none => if isPfx pat (c :: t) then some 0 else none

/-- Model of `String.prototype.slice(a, b)` for `0 ≤ a ≤ b`. -/
def jsSlice (a b : Nat) (s : List Char) : List Char :=
  (s.drop a).take (b - a)

/-- Model of `String.prototype.trim` restricted to the whitespace characters of
`isWsChar`. -/
def jsTrim (s : List Char) : List Char :=
  ((s.dropWhile isWsChar).reverse.dropWhile isWsChar).reverse

/-- The fence opener with language tag, ```` ```json ````. -/
def fenceTagChars : List Char := ['`', '`', '`', 'j', 's', 'o', 'n']

/-- The bare fence marker ```` ``` ````. -/
def fenceChars : List Char := ['`', '`', '`']

/-! ## Result extractor

Translation of `parseClaudeCodeOutput`
(`src/extension/services/claude-code-service.ts:193-229`).  The JavaScript
`try`/`catch` returning `null` on any `JSON.parse` throw is modelled by
`jsonParse` returning `none`; note that when strategy 3's fence positions are
found, its parse failure is the overall result (the exception skips
strategy 4), while fence positions that do not satisfy the guard fall
through to strategy 4 — both exactly as in the source. -/
def parseClaudeCodeOutput (output : List Char) : Option Jval :=
  let trimmed := jsTrim output
  if isPfx fenceTagChars trimmed && isSfx fenceChars trimmed then
    jsonParse (jsTrim ((trimmed.drop 7).take ((trimmed.drop 7).length - 3)))
  else if isPfx ['{'] trimmed then
    jsonParse trimmed
  else
    match strIndexOf? fenceTagChars trimmed with
    | some jsonBlockStart =>
      match strLastIndexOf? fenceChars trimmed with
      | some jsonBlockEnd =>
        if jsonBlockStart + 7 < jsonBlockEnd then
          jsonParse (jsTrim (jsSlice (jsonBlockStart + 7) jsonBlockEnd trimmed))
        else jsonParse trimmed
      | none => jsonParse trimmed
    | none => jsonParse trimmed

/-! ## Spec-side description of the extractor

The specification describes the extractor as an ordered list of strategies,
the first whose guard matches determining the result.  `extractSpec` states
that description literally (a guard/action table searched with `find?`); the
refinement theorem for claim C5 proves it extensionally equal to the
source translation above. -/

/-- Guard of strategy 1: the trimmed output is entirely a `json`-tagged
fenced block. -/
def strat1Fires (t : List Char) : Bool :=
  isPfx fenceTagChars t && isSfx fenceChars t

/-- Guard of strategy 3: a `json`-tagged fence opener occurs somewhere and a
closing fence occurs strictly after the opener's tag. -/
def strat3Fires (t : List Char) : Bool :=
  match strIndexOf? fenceTagChars t, strLastIndexOf? fenceChars t with
  | some i, some j => decide (i + 7 < j)
  | _, _ => false

/-- Action of strategy 3: parse the interior between the first opener-with-tag
and the last closing fence. -/
def strat3Action (t : List Char) : Option Jval :=
  match strIndexOf? fenceTagChars t, strLastIndexOf? fenceChars t with
  | some i, some j => jsonParse (jsTrim (jsSlice (i + 7) j t))
  | _, _ => none

/-- The ordered strategy table of the specification: strip outer fences;
parse raw object text; parse the interior of an embedded fence (first opener
to last closer); fallback whole-string parse. -/
def extractStrategies : List ((List Char → Bool) × (List Char → Option Jval)) :=
  [ (strat1Fires, fun t => jsonParse (jsTrim ((t.drop 7).take ((t.drop 7).length - 3)))),
    (fun t => isPfx ['{'] t, fun t => jsonParse t),
    (strat3Fires, strat3Action),
    (fun _ => true, fun t => jsonParse t) ]

/-- Spec-side extractor: trim, then apply the first matching strategy. -/
def extractSpec (output : List Char) : Option Jval :=
  let t := jsTrim output
  match extractStrategies.find? (fun p => p.1 t) with
  | some p => p.2 t
  | none => none

/-! ## Claude Code service (`claude-code-service.ts`)

The `[yougao 改造]` offline rework replaced the CLI invocation wholesale:
both entry points skip spawning, never touch the shared `activeProcesses`
registry, and return a fixed mock success.  The embedding carries the
registry state explicitly (the module-level `Map`), the ambient elapsed
wall-clock time (`Date.now() - startTime`) as a parameter, and models the
two entry points exactly as the source computes them. -/

/-- The model selector forwarded to the CLI (`ClaudeModel`). -/
inductive ClaudeModel where
  | sonnet | opus | haiku
deriving DecidableEq

/-- Error codes of `ClaudeCodeExecutionResult.error.code`. -/
inductive ClaudeErrorCode where
  | COMMAND_NOT_FOUND | TIMEOUT | PARSE_ERROR | UNKNOWN_ERROR
deriving DecidableEq

/-- The `error` field of an execution result. -/
structure ClaudeCodeError where
  code : ClaudeErrorCode
  message : List Char
  details : Option (List Char) := none
deriving DecidableEq

/-- Execution result record (`ClaudeCodeExecutionResult`) of the service. -/
structure ClaudeCodeExecutionResult where
  success : Bool
  output : Option (List Char) := none
  error : Option ClaudeCodeError := none
  executionTimeMs : Nat
deriving DecidableEq

/-- One entry of the `activeProcesses` map: an opaque subprocess handle and
the spawn timestamp. -/
structure ProcessRecord where
  subprocess : Nat
  startTime : Nat
deriving DecidableEq

/-- The module-level `activeProcesses` map, as an association list keyed by
request id. -/
def ProcessRegistry := List (String × ProcessRecord)

/-- Lookup (`Map.get`) on the registry. -/
def registryGet (st : ProcessRegistry) (requestId : String) : Option ProcessRecord :=
  match st with
  | [] => none
  | (k, v) :: t => if k = requestId then some v else registryGet t requestId

/-- Removal (`Map.delete`) on the registry. -/
def registryDelete (st : ProcessRegistry) (requestId : String) : ProcessRegistry :=
  match st with
  | [] => []
  | (k, v) :: t =>
    if k = requestId then registryDelete t requestId
    else (k, v) :: registryDelete t requestId

/-- The fixed placeholder document both entry points return
(`JSON.stringify` of the `[yougao 离线模式]` mock object). -/
def offlineWorkflowJson : Jval :=
  .jobj (.cons "status".toList (.jstr "success".toList)
    (.cons "message".toList (.jstr "[yougao 离线模式] 工作流已处理完成".toList)
      (.cons "values".toList
        (.jobj (.cons "workflow".toList
          (.jobj (.cons "name".toList (.jstr "offline-workflow".toList)
            (.cons "description".toList (.jstr "离线模式生成的工作流".toList)
              (.cons "nodes".toList (.jarr .nil)
                (.cons "edges".toList (.jarr .nil) .nil)))))
          .nil))
        .nil)))

/-- The mock output string both entry points place in `output`. -/
def offlineMockOutput : List Char := stringifyVal offlineWorkflowJson

/-- Translation of `executeClaudeCodeCLI` (`claude-code-service.ts:121-161`): the offline
stub logs, computes `min(Date.now() - startTime, 1000)`, and returns the
mock success without consulting or mutating `activeProcesses`. -/
def executeClaudeCodeCLI (st : ProcessRegistry) (_prompt : List Char)
    (_timeoutMs : Nat := 60000) (_requestId : Option String := none)
    (_workingDirectory : Option (List Char) := none)
    (_model : ClaudeModel := .sonnet)
    (_allowedTools : Option (List (List Char)) := none)
    (elapsedMs : Nat := 0) :
    ProcessRegistry × ClaudeCodeExecutionResult :=
  (st,
    { success := true
      output := some offlineMockOutput
      error := none
      executionTimeMs := min elapsedMs 1000 })

/-- One invocation of the streaming progress callback. -/
structure ProgressEvent where
  chunk : List Char
  displayText : List Char
  explanatoryText : List Char
  contentType : Option (List Char)
deriving DecidableEq

/-- Translation of `executeClaudeCodeCLIStreaming` (`claude-code-service.ts:308-360`): the
offline stub schedules two mock progress callbacks and returns the same mock
success, with `min(Date.now() - startTime, 600)` as the elapsed time; the
registry is untouched. -/
def executeClaudeCodeCLIStreaming (st : ProcessRegistry) (_prompt : List Char)
    (_timeoutMs : Nat := 60000) (_requestId : Option String := none)
    (_workingDirectory : Option (List Char) := none)
    (_model : ClaudeModel := .sonnet)
    (_allowedTools : Option (List (List Char)) := none)
    (elapsedMs : Nat := 0) :
    ProcessRegistry × ClaudeCodeExecutionResult × List ProgressEvent :=
  (st,
    { success := true
      output := some offlineMockOutput
      error := none
      executionTimeMs := min elapsedMs 600 },
    [ { chunk := "处理中...".toList, displayText := "离线模式处理中...".toList
        explanatoryText := "离线模式处理中...".toList
        contentType := some "text".toList },
      { chunk := "完成".toList, displayText := offlineMockOutput
        explanatoryText := offlineMockOutput
        contentType := some "text".toList } ])

/-- Return value of the cancellation entry points. -/
structure CancelResult where
  cancelled : Bool
  executionTimeMs : Option Nat := none
deriving DecidableEq

/-- Translation of `cancelGeneration` (`claude-code-service.ts:237-278`): look up the
record; absent means `{cancelled: false}` with no elapsed time and no state
change; present means kill, schedule the 500 ms force-kill, delete the
record, and report the elapsed time.  Signals to the operating-system process
are outside the modelled state. -/
def cancelGeneration (st : ProcessRegistry) (requestId : String) (now : Nat) :
    ProcessRegistry × CancelResult :=
  match registryGet st requestId with
  | none => (st, { cancelled := false, executionTimeMs := none })
  | some rec =>
    (registryDelete st requestId,
      { cancelled := true, executionTimeMs := some (now - rec.startTime) })

/-- Translation of `cancelRefinement` (`claude-code-service.ts:368-409`): identical logic to
`cancelGeneration`, duplicated in the source. -/
def cancelRefinement (st : ProcessRegistry) (requestId : String) (now : Nat) :
    ProcessRegistry × CancelResult :=
  match registryGet st requestId with
  | none => (st, { cancelled := false, executionTimeMs := none })
  | some rec =>
    (registryDelete st requestId,
      { cancelled := true, executionTimeMs := some (now - rec.startTime) })

/-! ## Storage roots and the load-workflow command

`file-service.ts` recognizes two physical directories: the workspace
directory `.vscode/workflows` (the legacy root) and the offline directory
resolved from `offlineConfig.localStoragePath` (`~/.yougao/workflows`).
`getCurrentStorageDirectory` selects between them on `offlineConfig.isOffline`. -/

/-- The two physical storage directories. -/
inductive StorageRoot where
  | workspace | offline
deriving DecidableEq

/-- The configuration collaborator (`offline.config.js` shape). -/
structure OfflineConfig where
  isOffline : Bool
  disableCloudApi : Bool := true
deriving DecidableEq

/-- The shipped configuration constant (`offline.config.js`): offline mode on. -/
def offlineConfig : OfflineConfig := { isOffline := true }

/-- Translation of `FileService.getCurrentStorageDirectory` (`file-service.ts:50-56`). -/
def getCurrentStorageDirectory (cfg : OfflineConfig) : StorageRoot :=
  if cfg.isOffline then .offline else .workspace

/-- The `foundIn` tag of the load-workflow command. -/
inductive FoundIn where
  | current | offline | workspace
deriving DecidableEq

/-- Existence oracle for workflow files: which root holds which workflow id
(models `fileService.fileExists` over `root/name.json` paths). -/
def WorkflowFs := StorageRoot → String → Bool

/-- The lookup phase of `loadWorkflow` (the unnamed load-workflow command
source, lines 29-53): check the current storage directory; `else if` offline
mode, check the offline directory; `else` check `getWorkflowFilePath` again
(the comment says the workspace directory, but the call resolves the current
storage directory).  Returns the root the document is served from together
with the `foundIn` tag, or `none` for the not-found error path. -/
def loadWorkflowResolve (cfg : OfflineConfig) (ex : WorkflowFs)
    (workflowId : String) : Option (FoundIn × StorageRoot) :=
  let cur := getCurrentStorageDirectory cfg
  if ex cur workflowId then some (.current, cur)
  else if cfg.isOffline then
    if ex .offline workflowId then some (.offline, .offline) else none
  else
    if ex (getCurrentStorageDirectory cfg) workflowId then
      some (.workspace, getCurrentStorageDirectory cfg)
    else none

/-- Modelled from the spec: the three-tier precedence the claim states for
`load(name)` — the active root, then (only in offline mode) the dedicated
offline root, then the legacy workspace root; the first root containing the
name wins. -/
def loadWorkflowSpecResolve (cfg : OfflineConfig) (ex : WorkflowFs)
    (workflowId : String) : Option StorageRoot :=
  ([getCurrentStorageDirectory cfg]
      ++ (if cfg.isOffline then [StorageRoot.offline] else [])
      ++ [StorageRoot.workspace]).find? (fun r => ex r workflowId)

/-! ## Workflow listing (`load-workflow-list.ts`)

`loadWorkflowList` merges up to three directory scans (the current storage
directory; in offline mode also the offline directory; then the `workspace`
pass, whose path is again resolved through `getWorkflowsDirectory`), with a
`processedFiles` set spanning the whole merge for de-duplication, and sorts
the merged array by `new Date(updatedAt).getTime()` descending.  The
`Date` library is abstracted as a timestamp function `dateMs`; the editor
host's directory enumeration and file reads are an oracle `ListingFs`
(`none` models the thrown/absent cases the source swallows). -/

/-- The `directoryType` union of `loadWorkflowsFromDirectory`. -/
inductive DirectoryType where
  | current | offline | workspace
deriving DecidableEq

/-- The workflow file extension `.json`. -/
def jsonExt : List Char := ['.', 'j', 's', 'o', 'n']

/-- JavaScript `String.prototype.replace` with a plain-string pattern and
empty replacement: erase the first occurrence. -/
def eraseFirst (pat s : List Char) : List Char :=
  match strIndexOf? pat s with
  | some i => s.take i ++ s.drop (i + pat.length)
  | none => s

/-- Result of `JSON.parse` on one workflow file, projected to the fields the
listing reads; `none` on a field models the absent/undefined case. -/
structure RawWorkflowDoc where
  name : Option (List Char) := none
  description : Option (List Char) := none
  updatedAt : Option (List Char) := none
deriving DecidableEq

/-- Editor-host oracle for the listing: directory enumeration (filename and
is-file flag; `none` = `readDirectory` threw) and per-workflow read+parse
(`none` = `readFile` or `JSON.parse` threw). -/
structure ListingFs where
  listDir : StorageRoot → Option (List (List Char × Bool))
  readDoc : StorageRoot → List Char → Option RawWorkflowDoc

/-- One entry pushed onto the `workflows` array. -/
structure WorkflowEntry where
  id : List Char
  name : List Char
  description : Option (List Char)
  updatedAt : List Char
  source : DirectoryType
deriving DecidableEq

/-- Directory enumerated by a pass: `current` and `workspace` both resolve
through `getWorkflowsDirectory()`, i.e. the current storage directory
(the `workspace` case's comment claims the original workspace directory, but
the call does not say so); `offline` uses the offline directory. -/
def listRootOfType (cfg : OfflineConfig) : DirectoryType → StorageRoot
  | .current => getCurrentStorageDirectory cfg
  | .offline => .offline
  | .workspace => getCurrentStorageDirectory cfg

/-- Directory a pass reads files from: `getOfflineWorkflowFilePath` for the
`offline` pass, `getWorkflowFilePath` (current storage directory) otherwise. -/
def readRootOfType (cfg : OfflineConfig) : DirectoryType → StorageRoot
  | .offline => .offline
  | _ => getCurrentStorageDirectory cfg

/-- The entry built from a parsed document: `workflow.name || workflowId`,
`workflow.description`, `workflow.updatedAt || new Date().toISOString()`
(JavaScript `||` also replaces empty strings). -/
def mkWorkflowEntry (wid : List Char) (doc : RawWorkflowDoc)
    (nowIso : List Char) (dt : DirectoryType) : WorkflowEntry :=
  { id := wid
    name := match doc.name with
      | some n => if n.isEmpty then wid else n
      | none => wid
    description := doc.description
    updatedAt := match doc.updatedAt with
      | some u => if u.isEmpty then nowIso else u
      | none => nowIso
    source := dt }

/-- Body of the per-file loop of `loadWorkflowsFromDirectory`: a `.json` file
whose id is not yet in `processedFiles` is read and parsed; success pushes an
entry and marks the id processed, failure skips the file. -/
def processListedFile (fs : ListingFs) (cfg : OfflineConfig)
    (nowIso : List Char) (dt : DirectoryType)
    (acc2 : List WorkflowEntry × List (List Char)) (file : List Char × Bool) :
    List WorkflowEntry × List (List Char) :=
  if file.2 && isSfx jsonExt file.1 then
    let wid := eraseFirst jsonExt file.1
    if wid ∈ acc2.2 then acc2
    else
      match fs.readDoc (readRootOfType cfg dt) wid with
      | none => acc2
      | some doc =>
        (acc2.1 ++ [mkWorkflowEntry wid doc nowIso dt], acc2.2 ++ [wid])
  else acc2

/-- Translation of `loadWorkflowsFromDirectory` (`load-workflow-list.ts:83-155`): enumerate
the directory (contributing nothing if that throws) and run the per-file
loop over the entries. -/
def loadWorkflowsFromDirectory (fs : ListingFs) (cfg : OfflineConfig)
    (nowIso : List Char) (dt : DirectoryType)
    (acc : List WorkflowEntry × List (List Char)) :
    List WorkflowEntry × List (List Char) :=
  match fs.listDir (listRootOfType cfg dt) with
  | none => acc
  | some files => files.foldl (processListedFile fs cfg nowIso dt) acc

/-- The scan passes of `loadWorkflowList` (`load-workflow-list.ts:36-45`), in
order: current storage directory, the offline directory when offline mode is
on, then the `workspace` pass. -/
def workflowListPasses (cfg : OfflineConfig) : List DirectoryType :=
  [DirectoryType.current]
    ++ (if cfg.isOffline then [DirectoryType.offline] else [])
    ++ [DirectoryType.workspace]

/-- Stable insertion into a list sorted by timestamp descending; models one
step of `Array.prototype.sort` with comparator `dateB - dateA` (stable per
the ECMAScript specification). -/
def insertByDateDesc (dateMs : List Char → Int) (e : WorkflowEntry) :
    List WorkflowEntry → List WorkflowEntry
  | [] => [e]
  | x :: xs =>
    if dateMs x.updatedAt < dateMs e.updatedAt then e :: x :: xs
    else x :: insertByDateDesc dateMs e xs

/-- Stable sort by timestamp descending. -/
def sortByDateDesc (dateMs : List Char → Int) (l : List WorkflowEntry) :
    List WorkflowEntry :=
  l.foldr (insertByDateDesc dateMs) []

/-- Translation of `loadWorkflowList` (`load-workflow-list.ts:20-65`) up to the payload
projection: run the passes with one shared accumulator and processed-set,
then sort by update time, newest first. -/
def loadWorkflowList (fs : ListingFs) (cfg : OfflineConfig)
    (nowIso : List Char) (dateMs : List Char → Int) : List WorkflowEntry :=
  sortByDateDesc dateMs
    ((workflowListPasses cfg).foldl
      (fun acc dt => loadWorkflowsFromDirectory fs cfg nowIso dt acc)
      ([], [])).1

/-- The payload actually posted to the webview drops the `source` field. -/
structure WorkflowListItem where
  id : List Char
  name : List Char
  description : Option (List Char)
  updatedAt : List Char
deriving DecidableEq

/-- The `payloadWorkflows` projection (`load-workflow-list.ts:55`). -/
def workflowListPayload (fs : ListingFs) (cfg : OfflineConfig)
    (nowIso : List Char) (dateMs : List Char → Int) : List WorkflowListItem :=
  (loadWorkflowList fs cfg nowIso dateMs).map
    (fun e => { id := e.id, name := e.name, description := e.description
                updatedAt := e.updatedAt })

/-- The ids one pass would emit on its own (empty accumulator): the names the
pass's root contributes to a merge when nothing precedes it. -/
def scanIds (fs : ListingFs) (cfg : OfflineConfig) (nowIso : List Char)
    (dt : DirectoryType) : List (List Char) :=
  (loadWorkflowsFromDirectory fs cfg nowIso dt ([], [])).2

/-- Timestamp key for ISO `YYYY-MM-DD` strings, order-isomorphic on that
format to `new Date(s).getTime()`: the digits read as a decimal number. -/
def isoDateKey (s : List Char) : Int :=
  ((s.filter isDigitCh).foldl (fun a c => a * 10 + digitVal c) 0 : Nat)

/-! ## Auxiliary definitions for the proofs and claim instances -/

/-- Hypothesis shape used throughout the parse lemmas: the remainder does not
begin with a decimal digit (so a number token cannot leak into it). -/
def NoDigitHead (l : List Char) : Prop :=
  ∀ c, l.head? = some c → isDigitCh c = false

/-- Characters that can begin a serialized JSON value. -/
def HeadOkChar (c : Char) : Prop :=
  c = '"' ∨ c = '[' ∨ c = '{' ∨ c = 'n' ∨ c = 't' ∨ c = 'f' ∨ c = '-' ∨
    isDigitCh c = true

/-! ## Fuel requirements -/

mutual

/-- Fuel sufficient to parse a serialized value. -/
def needVal : Jval → Nat
  | .jnull => 1
  | .jbool _ => 1
  | .jnum _ => 1
  | .jstr _ => 1
  | .jarr xs => 2 + needArr xs
  | .jobj kvs => 2 + needObj kvs

/-- Fuel sufficient for the array-tail loop. -/
def needArr : JvalList → Nat
  | .nil => 0
  | .cons v vs => needVal v + needArr vs + 2

/-- Fuel sufficient for the object-tail loop. -/
def needObj : JvalObj → Nat
  | .nil => 0
  | .cons _ v kvs => needVal v + needObj kvs + 2

end

/-! ## Roundtrip statements -/

/-- Roundtrip statement for one value: the parser consumes exactly its
serialization and leaves any non-digit-headed suffix intact. -/
def RtVal (v : Jval) : Prop :=
  ∀ fuel rest, needVal v ≤ fuel → NoDigitHead rest →
    parseVal fuel (stringifyVal v ++ rest) = some (v, rest)

/-- Roundtrip statement for array element lists (tail loop and whole-array
body after the opening bracket). -/
def RtArr (vs : JvalList) : Prop :=
  (∀ fuel rest, needArr vs + 1 ≤ fuel → NoDigitHead rest →
    parseArrTail fuel (stringifyArrRest vs ++ ']' :: rest) = some (vs, rest)) ∧
  (∀ fuel rest, needArr vs + 1 ≤ fuel → NoDigitHead rest →
    parseArrStart fuel (stringifyArr vs ++ ']' :: rest) = some (.jarr vs, rest))

/-- Roundtrip statement for object member lists. -/
def RtObj (kvs : JvalObj) : Prop :=
  (∀ fuel rest, needObj kvs + 1 ≤ fuel → NoDigitHead rest →
    parseObjTail fuel (stringifyObjRest kvs ++ '}' :: rest) = some (kvs, rest)) ∧
  (∀ fuel rest, needObj kvs + 1 ≤ fuel → NoDigitHead rest →
    parseObjStart fuel (stringifyObj kvs ++ '}' :: rest) = some (.jobj kvs, rest))

/-- The `prose` prefix of the claimed third form. -/
def proseLead : List Char := ['p', 'r', 'o', 's', 'e', '\n']

/-- Existence oracle for claim C1's failing scenario: the workflow `w` exists
only in the legacy workspace root. -/
def c1LegacyOnlyFs : WorkflowFs :=
  fun r w => decide (r = StorageRoot.workspace) && decide (w = "w")

/-- The JSON string value `"a ```json b ``` c"`, whose bare serialization
contains a json-tagged fence opener and a later closing fence. -/
def c4BadValue : Jval :=
  .jstr ['a', ' ', '`', '`', '`', 'j', 's', 'o', 'n', ' ', 'b', ' ', '`', '`', '`', ' ', 'c']

/-- A plain object value used to witness the amended roundtrip. -/
def c4GoodValue : Jval := .jobj (.cons ['a'] (.jstr ['x']) .nil)

/-- Input demonstrating the last-closing-fence rule: the JSON payload itself
contains a fence-like run of backticks. -/
def c5DemoInput : List Char :=
  ['p', 'r', 'e', '\n', '`', '`', '`', 'j', 's', 'o', 'n', '\n',
   '{', '"', 'a', '"', ':', '"', 'b', '`', '`', '`', 'c', '"', '}', '\n', '`', '`', '`']

/-- The literal input `not json at all`. -/
def notJsonAtAll : List Char :=
  ['n', 'o', 't', ' ', 'j', 's', 'o', 'n', ' ', 'a', 't', ' ', 'a', 'l', 'l']

/-- The unterminated fence input ```` ```json\n{ ````. -/
def unterminatedFence : List Char :=
  ['`', '`', '`', 'j', 's', 'o', 'n', '\n', '{']

/-! ## Listing analysis: emitted ids of one pass -/

/-- Ids one directory scan emits, given the already-processed set: the
specification of the per-file loop's effect on `processedFiles`. -/
def passEmits (fs : ListingFs) (cfg : OfflineConfig) (dt : DirectoryType) :
    List (List Char × Bool) → List (List Char) → List (List Char)
  | [], _ => []
  | f :: rest, blocked =>
    if f.2 && isSfx jsonExt f.1 then
      if eraseFirst jsonExt f.1 ∈ blocked then passEmits fs cfg dt rest blocked
      else
        match fs.readDoc (readRootOfType cfg dt) (eraseFirst jsonExt f.1) with
        | none => passEmits fs cfg dt rest blocked
        | some _ =>
          eraseFirst jsonExt f.1 ::
            passEmits fs cfg dt rest (blocked ++ [eraseFirst jsonExt f.1])
    else passEmits fs cfg dt rest blocked

/-- Ids one whole pass emits (empty contribution when the directory read
throws). -/
def passScan (fs : ListingFs) (cfg : OfflineConfig) (dt : DirectoryType)
    (blocked : List (List Char)) : List (List Char) :=
  match fs.listDir (listRootOfType cfg dt) with
  | none => []
  | some files => passEmits fs cfg dt files blocked

/-- Listing oracle for the de-duplication example under the shipped offline
configuration: root A, the active offline directory, holds `{x, y}`; root B,
the legacy workspace directory, holds `{y, z}`.  Every document parses, with
distinct update stamps so ordering is unambiguous. -/
def fsRootsAB : ListingFs :=
  { listDir := fun r =>
      match r with
      | .offline => some [(['x', '.', 'j', 's', 'o', 'n'], true),
                          (['y', '.', 'j', 's', 'o', 'n'], true)]
      | .workspace => some [(['y', '.', 'j', 's', 'o', 'n'], true),
                            (['z', '.', 'j', 's', 'o', 'n'], true)]
    readDoc := fun _ wid =>
      if wid = ['x'] then
        some { name := some wid, description := none, updatedAt := some ['3'] }
      else if wid = ['y'] then
        some { name := some wid, description := none, updatedAt := some ['2'] }
      else
        some { name := some wid, description := none, updatedAt := some ['1'] } }

/-- Modelled from the spec: the directory each listing pass enumerates when
the `workspace` pass reads the legacy workspace root, as the spec's
`listAll` (reads every recognized root) and the source's own pass comment
(`使用原始工作区目录`) describe — the source instead re-resolves the current
storage directory for that pass. -/
def listRootOfTypeSpec (cfg : OfflineConfig) : DirectoryType → StorageRoot
  | .current => getCurrentStorageDirectory cfg
  | .offline => .offline
  | .workspace => .workspace

/-- Modelled from the spec: the per-file loop when a pass reads each file
from the root it enumerated; identical to `processListedFile` except for the
root the document is read from. -/
def processListedFileSpec (fs : ListingFs) (root : StorageRoot)
    (nowIso : List Char) (dt : DirectoryType)
    (acc2 : List WorkflowEntry × List (List Char)) (file : List Char × Bool) :
    List WorkflowEntry × List (List Char) :=
  if file.2 && isSfx jsonExt file.1 then
    let wid := eraseFirst jsonExt file.1
    if wid ∈ acc2.2 then acc2
    else
      match fs.readDoc root wid with
      | none => acc2
      | some doc =>
        (acc2.1 ++ [mkWorkflowEntry wid doc nowIso dt], acc2.2 ++ [wid])
  else acc2

/-- Modelled from the spec: `listAll` with each pass enumerating and reading
its own root in the three-tier precedence order, merged through the shared
de-duplication set and sorted newest first. -/
def loadWorkflowListSpec (fs : ListingFs) (cfg : OfflineConfig)
    (nowIso : List Char) (dateMs : List Char → Int) : List WorkflowEntry :=
  sortByDateDesc dateMs
    ((workflowListPasses cfg).foldl
      (fun acc dt =>
        match fs.listDir (listRootOfTypeSpec cfg dt) with
        | none => acc
        | some files =>
          files.foldl (processListedFileSpec fs (listRootOfTypeSpec cfg dt) nowIso dt) acc)
      ([], [])).1

/-- Listing oracle for the ordering example: three documents with update
stamps 2024-01-01, 2024-06-01 and 2024-03-01. -/
def fsDates : ListingFs :=
  { listDir := fun r =>
      match r with
      | .offline => some [(['a', '.', 'j', 's', 'o', 'n'], true),
                          (['b', '.', 'j', 's', 'o', 'n'], true),
                          (['c', '.', 'j', 's', 'o', 'n'], true)]
      | .workspace => none
    readDoc := fun _ wid =>
      if wid = ['a'] then
        some { name := some wid, description := none,
               updatedAt := some ['2', '0', '2', '4', '-', '0', '1', '-', '0', '1'] }
      else if wid = ['b'] then
        some { name := some wid, description := none,
               updatedAt := some ['2', '0', '2', '4', '-', '0', '6', '-', '0', '1'] }
      else
        some { name := some wid, description := none,
               updatedAt := some ['2', '0', '2', '4', '-', '0', '3', '-', '0', '1'] } }

/-! ## Arithmetic and character lemmas -/

theorem isDigitCh_cases {c : Char} (h : isDigitCh c = true) :
    c = '0' ∨ c = '1' ∨ c = '2' ∨ c = '3' ∨ c = '4' ∨
    c = '5' ∨ c = '6' ∨ c = '7' ∨ c = '8' ∨ c = '9' := by
  simp only [isDigitCh, Bool.or_eq_true, decide_eq_true_eq] at h
  tauto

theorem isDigitCh_ne {c d : Char} (hc : isDigitCh c = true)
    (hd : isDigitCh d = false) : c ≠ d := by
  intro e; rw [e] at hc; rw [hc] at hd; cases hd

theorem not_isWsChar_of_isDigitCh {c : Char} (h : isDigitCh c = true) :
    isWsChar c = false := by
  rcases isDigitCh_cases h with rfl | rfl | rfl | rfl | rfl | rfl | rfl | rfl | rfl | rfl <;> rfl

theorem digitVal_digitChar {d : Nat} (h : d < 10) :
    digitVal (digitChar d) = d := by
  interval_cases d <;> rfl

theorem isDigitCh_digitChar {d : Nat} (h : d < 10) :
    isDigitCh (digitChar d) = true := by
  interval_cases d <;> rfl

theorem natChars_ne_nil (n : Nat) : natChars n ≠ [] := by
  unfold natChars
  split
  · simp
  · next h =>
    simp only [ne_eq, List.reverse_eq_nil_iff, List.map_eq_nil_iff]
    exact Nat.digits_ne_nil_iff_ne_zero.mpr h

theorem mem_natChars_isDigit {n : Nat} {c : Char} (h : c ∈ natChars n) :
    isDigitCh c = true := by
  unfold natChars at h
  split at h
  · rw [List.mem_singleton] at h
    subst h
    rfl
  · next hn =>
    rw [List.mem_reverse, List.mem_map] at h
    obtain ⟨d, hd, rfl⟩ := h
    exact isDigitCh_digitChar (Nat.digits_lt_base (by norm_num) hd)

theorem digitsVal_natChars (n : Nat) :
    (natChars n).foldl (fun a c => a * 10 + digitVal c) 0 = n := by
  unfold natChars
  split
  · simp [digitVal]; omega
  · next hn =>
    rw [List.foldl_reverse]
    have key : ∀ L : List Nat, (∀ d ∈ L, d < 10) →
        (L.map digitChar).foldr (fun c a => a * 10 + digitVal c) 0 =
          Nat.ofDigits 10 L := by
      intro L
      induction L with
      | nil => intro _; rfl
      | cons d ds ih =>
        intro hmem
        have hd : d < 10 := hmem d (by simp)
        simp only [List.map_cons, List.foldr_cons, Nat.ofDigits_cons,
          ih (fun x hx => hmem x (by simp [hx])), digitVal_digitChar hd]
        ring
    have := key (Nat.digits 10 n) (fun d hd => Nat.digits_lt_base (by norm_num) hd)
    simpa [this] using Nat.ofDigits_digits 10 n

/-! ## takeWhile / dropWhile over appends -/

theorem takeWhile_append_all {p : Char → Bool} {l r : List Char}
    (h : ∀ c ∈ l, p c = true) :
    (l ++ r).takeWhile p = l ++ r.takeWhile p := by
  induction l with
  | nil => rfl
  | cons c cs ih =>
    have hc : p c = true := h c (by simp)
    simp [List.takeWhile_cons, hc, ih (fun x hx => h x (by simp [hx]))]

theorem dropWhile_append_all {p : Char → Bool} {l r : List Char}
    (h : ∀ c ∈ l, p c = true) :
    (l ++ r).dropWhile p = r.dropWhile p := by
  induction l with
  | nil => rfl
  | cons c cs ih =>
    have hc : p c = true := h c (by simp)
    simp [List.dropWhile_cons, hc, ih (fun x hx => h x (by simp [hx]))]

theorem takeWhile_eq_nil_of_head {p : Char → Bool} {l : List Char}
    (h : ∀ c, l.head? = some c → p c = false) : l.takeWhile p = [] := by
  cases l with
  | nil => rfl
  | cons c cs => simp [List.takeWhile_cons, h c rfl]

theorem dropWhile_eq_self_of_head {p : Char → Bool} {l : List Char}
    (h : ∀ c, l.head? = some c → p c = false) : l.dropWhile p = l := by
  cases l with
  | nil => rfl
  | cons c cs => simp [List.dropWhile_cons, h c rfl]


theorem noDigitHead_nil : NoDigitHead [] := by
  intro c h; cases h

theorem noDigitHead_cons {c : Char} {l : List Char} (h : isDigitCh c = false) :
    NoDigitHead (c :: l) := by
  intro d hd
  cases hd
  exact h

theorem parseNat_natChars {n : Nat} {rest : List Char} (h : NoDigitHead rest) :
    parseNat (natChars n ++ rest) = some (n, rest) := by
  unfold parseNat
  have htake : (natChars n ++ rest).takeWhile isDigitCh = natChars n := by
    rw [takeWhile_append_all (fun c hc => mem_natChars_isDigit hc),
      takeWhile_eq_nil_of_head h, List.append_nil]
  have hdrop : (natChars n ++ rest).dropWhile isDigitCh = rest := by
    rw [dropWhile_append_all (fun c hc => mem_natChars_isDigit hc),
      dropWhile_eq_self_of_head h]
  simp only [htake, hdrop, List.isEmpty_iff]
  rw [if_neg (natChars_ne_nil n), digitsVal_natChars]

/-! ## Keyword and string-literal roundtrips -/

theorem stripPfx_append (p rest : List Char) :
    stripPfx p (p ++ rest) = some rest := by
  induction p with
  | nil => rfl
  | cons c cs ih => simp [stripPfx, ih]

theorem parseStringBody_cons (c : Char) (cs : List Char) :
    parseStringBody (c :: cs) =
      if c = '"' then some ([], cs)
      else if c = '\\' then
        match cs with
        | [] => none
        | e :: cs' =>
          match unescChar e, parseStringBody cs' with
          | some d, some (body, rest) => some (d :: body, rest)
          | _, _ => none
      else
        match parseStringBody cs with
        | some (body, rest) => some (c :: body, rest)
        | none => none := by
  rw [parseStringBody.eq_def]

theorem parseStringBody_escList (s : List Char) :
    ∀ rest, parseStringBody (escList s ++ '"' :: rest) = some (s, rest) := by
  induction s with
  | nil =>
    intro rest
    simp [escList, parseStringBody_cons]
  | cons c cs ih =>
    intro rest
    by_cases h1 : c = '"'
    · subst h1
      simp [escList, escChar, parseStringBody_cons, unescChar, ih rest]
    · by_cases h2 : c = '\\'
      · subst h2
        simp [escList, escChar, parseStringBody_cons, unescChar, ih rest]
      · by_cases h3 : c = '\n'
        · subst h3
          simp [escList, escChar, parseStringBody_cons, unescChar, ih rest]
        · by_cases h4 : c = '\t'
          · subst h4
            simp [escList, escChar, parseStringBody_cons, unescChar, ih rest]
          · by_cases h5 : c = '\r'
            · subst h5
              simp [escList, escChar, parseStringBody_cons, unescChar, ih rest]
            · simp [escList, escChar, h1, h2, h3, h4, h5, parseStringBody_cons, ih rest]

/-! ## Mutual induction over the JSON family -/

theorem jval_mutual_ind {P : Jval → Prop} {Q : JvalList → Prop} {R : JvalObj → Prop}
    (hnull : P .jnull) (hbool : ∀ b, P (.jbool b)) (hnum : ∀ n, P (.jnum n))
    (hstr : ∀ s, P (.jstr s))
    (harr : ∀ xs, Q xs → P (.jarr xs)) (hobj : ∀ kvs, R kvs → P (.jobj kvs))
    (hnil : Q .nil) (hcons : ∀ v vs, P v → Q vs → Q (.cons v vs))
    (honil : R .nil) (hocons : ∀ k v kvs, P v → R kvs → R (.cons k v kvs)) :
    (∀ v, P v) ∧ (∀ vs, Q vs) ∧ (∀ kvs, R kvs) :=
  ⟨fun v => @Jval.rec P Q R hnull hbool hnum hstr harr hobj hnil hcons honil hocons v,
   fun vs => @JvalList.rec P Q R hnull hbool hnum hstr harr hobj hnil hcons honil hocons vs,
   fun kvs => @JvalObj.rec P Q R hnull hbool hnum hstr harr hobj hnil hcons honil hocons kvs⟩

/-! ## Shape of serialized output -/

theorem natChars_head (n : Nat) :
    ∃ c cs, natChars n = c :: cs ∧ isDigitCh c = true := by
  obtain ⟨c, cs, h⟩ := List.exists_cons_of_ne_nil (natChars_ne_nil n)
  exact ⟨c, cs, h, mem_natChars_isDigit (h ▸ List.mem_cons_self c cs)⟩

theorem mem_of_getLast?_eq_some {l : List Char} {c : Char}
    (h : l.getLast? = some c) : c ∈ l := by
  obtain ⟨hne, rfl⟩ := List.mem_getLast?_eq_getLast (Option.mem_def.mpr h)
  exact List.getLast_mem hne

theorem natChars_last (n : Nat) :
    ∃ c, (natChars n).getLast? = some c ∧ isDigitCh c = true := by
  cases h : (natChars n).getLast? with
  | none => exact absurd (List.getLast?_eq_none_iff.mp h) (natChars_ne_nil n)
  | some c => exact ⟨c, rfl, mem_natChars_isDigit (mem_of_getLast?_eq_some h)⟩


theorem headOkChar_props {c : Char} (h : HeadOkChar c) :
    isWsChar c = false ∧ c ≠ '`' ∧ c ≠ ']' ∧ c ≠ '}' ∧ c ≠ ',' := by
  rcases h with rfl | rfl | rfl | rfl | rfl | rfl | rfl | hd
  case _ => exact ⟨rfl, by decide, by decide, by decide, by decide⟩
  case _ => exact ⟨rfl, by decide, by decide, by decide, by decide⟩
  case _ => exact ⟨rfl, by decide, by decide, by decide, by decide⟩
  case _ => exact ⟨rfl, by decide, by decide, by decide, by decide⟩
  case _ => exact ⟨rfl, by decide, by decide, by decide, by decide⟩
  case _ => exact ⟨rfl, by decide, by decide, by decide, by decide⟩
  case _ => exact ⟨rfl, by decide, by decide, by decide, by decide⟩
  case _ =>
    exact ⟨not_isWsChar_of_isDigitCh hd, isDigitCh_ne hd (by decide),
      isDigitCh_ne hd (by decide), isDigitCh_ne hd (by decide),
      isDigitCh_ne hd (by decide)⟩

theorem stringify_head_spec (v : Jval) :
    ∃ c cs, stringifyVal v = c :: cs ∧ HeadOkChar c := by
  cases v with
  | jnull => exact ⟨'n', ['u', 'l', 'l'], by simp [stringifyVal], by unfold HeadOkChar; tauto⟩
  | jbool b =>
    cases b with
    | true => exact ⟨'t', ['r', 'u', 'e'], by simp [stringifyVal], by unfold HeadOkChar; tauto⟩
    | false => exact ⟨'f', ['a', 'l', 's', 'e'], by simp [stringifyVal], by unfold HeadOkChar; tauto⟩
  | jnum n =>
    by_cases hn : n < 0
    · refine ⟨'-', natChars n.natAbs, ?_, by unfold HeadOkChar; tauto⟩
      simp [stringifyVal, hn]
    · obtain ⟨c, cs, hc, hd⟩ := natChars_head n.toNat
      refine ⟨c, cs, ?_, by unfold HeadOkChar; tauto⟩
      simp [stringifyVal, hn, hc]
  | jstr s => exact ⟨'"', escList s ++ ['"'], by simp [stringifyVal], by unfold HeadOkChar; tauto⟩
  | jarr xs => exact ⟨'[', stringifyArr xs ++ [']'], by simp [stringifyVal], by unfold HeadOkChar; tauto⟩
  | jobj kvs => exact ⟨'{', stringifyObj kvs ++ ['}'], by simp [stringifyVal], by unfold HeadOkChar; tauto⟩

theorem stringify_ne_nil (v : Jval) : stringifyVal v ≠ [] := by
  obtain ⟨c, cs, h, _⟩ := stringify_head_spec v
  simp [h]

theorem stringify_last_spec (v : Jval) :
    ∃ c, (stringifyVal v).getLast? = some c ∧ isWsChar c = false := by
  cases v with
  | jnull => exact ⟨'l', by simp [stringifyVal], rfl⟩
  | jbool b => cases b with
    | true => exact ⟨'e', by simp [stringifyVal], rfl⟩
    | false => exact ⟨'e', by simp [stringifyVal], rfl⟩
  | jnum n =>
    by_cases hn : n < 0
    · obtain ⟨c, hc, hd⟩ := natChars_last n.natAbs
      obtain ⟨c0, cs0, h0⟩ := List.exists_cons_of_ne_nil (natChars_ne_nil n.natAbs)
      refine ⟨c, ?_, not_isWsChar_of_isDigitCh hd⟩
      simp only [stringifyVal, if_pos hn]
      rw [h0] at hc ⊢
      rw [List.getLast?_cons_cons]
      exact hc
    · obtain ⟨c, hc, hd⟩ := natChars_last n.toNat
      refine ⟨c, ?_, not_isWsChar_of_isDigitCh hd⟩
      simp [stringifyVal, hn, hc]
  | jstr s =>
    refine ⟨'"', ?_, rfl⟩
    simp only [stringifyVal]
    rw [show ('"' :: (escList s ++ ['"'])) = ('"' :: escList s) ++ ['"'] by simp]
    exact List.getLast?_concat _
  | jarr xs =>
    refine ⟨']', ?_, rfl⟩
    simp only [stringifyVal]
    rw [show ('[' :: (stringifyArr xs ++ [']'])) = ('[' :: stringifyArr xs) ++ [']'] by simp]
    exact List.getLast?_concat _
  | jobj kvs =>
    refine ⟨'}', ?_, rfl⟩
    simp only [stringifyVal]
    rw [show ('{' :: (stringifyObj kvs ++ ['}'])) = ('{' :: stringifyObj kvs) ++ ['}'] by simp]
    exact List.getLast?_concat _

/-! ## Parser equation helpers -/

theorem parseVal_cons (fuel : Nat) (c : Char) (cs : List Char) :
    parseVal (fuel + 1) (c :: cs) =
      (if c = '"' then
        match parseStringBody cs with
        | some (body, rest) => some (.jstr body, rest)
        | none => none
      else if c = '[' then parseArrStart fuel cs
      else if c = '{' then parseObjStart fuel cs
      else if c = 'n' then
        match stripPfx ['u', 'l', 'l'] cs with
        | some rest => some (.jnull, rest)
        | none => none
      else if c = 't' then
        match stripPfx ['r', 'u', 'e'] cs with
        | some rest => some (.jbool true, rest)
        | none => none
      else if c = 'f' then
        match stripPfx ['a', 'l', 's', 'e'] cs with
        | some rest => some (.jbool false, rest)
        | none => none
      else if c = '-' then
        match parseNat cs with
        | some (n, rest) => some (.jnum (-(n : Int)), rest)
        | none => none
      else if isDigitCh c then
        match parseNat (c :: cs) with
        | some (n, rest) => some (.jnum (n : Int), rest)
        | none => none
      else none) := by
  rw [parseVal.eq_def]

theorem parseArrStart_cons (fuel : Nat) (c : Char) (cs : List Char) :
    parseArrStart (fuel + 1) (c :: cs) =
      (if c = ']' then some (.jarr .nil, cs)
      else
        match parseVal fuel (c :: cs) with
        | some (v, r) =>
          match parseArrTail fuel r with
          | some (vs, r') => some (.jarr (.cons v vs), r')
          | none => none
        | none => none) := by
  rw [parseArrStart.eq_def]

theorem parseArrTail_cons (fuel : Nat) (c : Char) (cs : List Char) :
    parseArrTail (fuel + 1) (c :: cs) =
      (if c = ']' then some (.nil, cs)
      else if c = ',' then
        match parseVal fuel cs with
        | some (v, r) =>
          match parseArrTail fuel r with
          | some (vs, r') => some (.cons v vs, r')
          | none => none
        | none => none
      else none) := by
  rw [parseArrTail.eq_def]

theorem parseObjStart_cons (fuel : Nat) (c : Char) (cs : List Char) :
    parseObjStart (fuel + 1) (c :: cs) =
      (if c = '}' then some (.jobj .nil, cs)
      else
        match parseMember fuel (c :: cs) with
        | some (k, v, r) =>
          match parseObjTail fuel r with
          | some (kvs, r') => some (.jobj (.cons k v kvs), r')
          | none => none
        | none => none) := by
  rw [parseObjStart.eq_def]

theorem parseObjTail_cons (fuel : Nat) (c : Char) (cs : List Char) :
    parseObjTail (fuel + 1) (c :: cs) =
      (if c = '}' then some (.nil, cs)
      else if c = ',' then
        match parseMember fuel cs with
        | some (k, v, r) =>
          match parseObjTail fuel r with
          | some (kvs, r') => some (.cons k v kvs, r')
          | none => none
        | none => none
      else none) := by
  rw [parseObjTail.eq_def]

theorem parseMember_cons (fuel : Nat) (c : Char) (cs : List Char) :
    parseMember (fuel + 1) (c :: cs) =
      (if c = '"' then
        match parseStringBody cs with
        | some (k, r) =>
          match r with
          | [] => none
          | c' :: r' =>
            if c' = ':' then
              match parseVal fuel r' with
              | some (v, rest) => some (k, v, rest)
              | none => none
            else none
        | none => none
      else none) := by
  rw [parseMember.eq_def]



theorem ndh_arrRest (vs : JvalList) (rest : List Char) :
    NoDigitHead (stringifyArrRest vs ++ ']' :: rest) := by
  cases vs with
  | nil => simpa [stringifyArrRest] using noDigitHead_cons (l := rest) (by decide)
  | cons v vs' =>
    simp only [stringifyArrRest, List.cons_append]
    exact noDigitHead_cons (by decide)

theorem ndh_objRest (kvs : JvalObj) (rest : List Char) :
    NoDigitHead (stringifyObjRest kvs ++ '}' :: rest) := by
  cases kvs with
  | nil => simpa [stringifyObjRest] using noDigitHead_cons (l := rest) (by decide)
  | cons k v kvs' =>
    simp only [stringifyObjRest, List.cons_append]
    exact noDigitHead_cons (by decide)

theorem parseMember_stringifyMember {v : Jval} (hv : RtVal v) (k : List Char) :
    ∀ fuel rest, needVal v + 1 ≤ fuel → NoDigitHead rest →
      parseMember fuel (stringifyMember k v ++ rest) = some (k, v, rest) := by
  intro fuel rest hf hr
  obtain ⟨f, rfl⟩ : ∃ f, fuel = f + 1 := ⟨fuel - 1, by omega⟩
  have hshape : stringifyMember k v ++ rest =
      '"' :: (escList k ++ '"' :: (':' :: (stringifyVal v ++ rest))) := by
    simp [stringifyMember]
  rw [hshape, parseMember_cons]
  simp only [if_pos rfl]
  rw [parseStringBody_escList]
  simp only [if_pos rfl]
  rw [hv f rest (by omega) hr]
  simp

theorem rt_all : (∀ v, RtVal v) ∧ (∀ vs, RtArr vs) ∧ (∀ kvs, RtObj kvs) := by
  refine jval_mutual_ind ?_ ?_ ?_ ?_ ?_ ?_ ?_ ?_ ?_ ?_
  · -- jnull
    intro fuel rest hf hr
    simp only [needVal] at hf
    obtain ⟨f, rfl⟩ : ∃ f, fuel = f + 1 := ⟨fuel - 1, by omega⟩
    have hsh : stringifyVal .jnull ++ rest = 'n' :: ('u' :: 'l' :: 'l' :: rest) := by
      simp [stringifyVal]
    rw [hsh, parseVal_cons]
    simp [stripPfx]
  · -- jbool
    intro b fuel rest hf hr
    simp only [needVal] at hf
    obtain ⟨f, rfl⟩ : ∃ f, fuel = f + 1 := ⟨fuel - 1, by omega⟩
    cases b with
    | true =>
      have hsh : stringifyVal (.jbool true) ++ rest =
          't' :: ('r' :: 'u' :: 'e' :: rest) := by simp [stringifyVal]
      rw [hsh, parseVal_cons]
      simp [stripPfx]
    | false =>
      have hsh : stringifyVal (.jbool false) ++ rest =
          'f' :: ('a' :: 'l' :: 's' :: 'e' :: rest) := by simp [stringifyVal]
      rw [hsh, parseVal_cons]
      simp [stripPfx]
  · -- jnum
    intro n fuel rest hf hr
    simp only [needVal] at hf
    obtain ⟨f, rfl⟩ : ∃ f, fuel = f + 1 := ⟨fuel - 1, by omega⟩
    by_cases hn : n < 0
    · have hsh : stringifyVal (.jnum n) ++ rest = '-' :: (natChars n.natAbs ++ rest) := by
        simp [stringifyVal, hn]
      rw [hsh, parseVal_cons]
      rw [if_neg (by decide), if_neg (by decide), if_neg (by decide),
        if_neg (by decide), if_neg (by decide), if_neg (by decide), if_pos rfl]
      rw [parseNat_natChars hr]
      have he : -((n.natAbs : Nat) : Int) = n := by omega
      exact congrArg (fun m => some (Jval.jnum m, rest)) he
    · obtain ⟨c, cs, hc, hd⟩ := natChars_head n.toNat
      have hsh : stringifyVal (.jnum n) ++ rest = c :: (cs ++ rest) := by
        simp [stringifyVal, hn, hc]
      rw [hsh, parseVal_cons]
      rw [if_neg (isDigitCh_ne hd (by decide)), if_neg (isDigitCh_ne hd (by decide)),
        if_neg (isDigitCh_ne hd (by decide)), if_neg (isDigitCh_ne hd (by decide)),
        if_neg (isDigitCh_ne hd (by decide)), if_neg (isDigitCh_ne hd (by decide)),
        if_neg (isDigitCh_ne hd (by decide)), if_pos hd]
      have hback : c :: (cs ++ rest) = natChars n.toNat ++ rest := by rw [hc]; simp
      rw [hback, parseNat_natChars hr]
      have he : ((n.toNat : Nat) : Int) = n := by omega
      exact congrArg (fun m => some (Jval.jnum m, rest)) he
  · -- jstr
    intro s fuel rest hf hr
    simp only [needVal] at hf
    obtain ⟨f, rfl⟩ : ∃ f, fuel = f + 1 := ⟨fuel - 1, by omega⟩
    have hsh : stringifyVal (.jstr s) ++ rest = '"' :: (escList s ++ '"' :: rest) := by
      simp [stringifyVal]
    rw [hsh, parseVal_cons]
    simp only [if_pos rfl]
    rw [parseStringBody_escList]
    simp
  · -- jarr
    intro xs hQ fuel rest hf hr
    simp only [needVal] at hf
    obtain ⟨f, rfl⟩ : ∃ f, fuel = f + 1 := ⟨fuel - 1, by omega⟩
    have hsh : stringifyVal (.jarr xs) ++ rest = '[' :: (stringifyArr xs ++ ']' :: rest) := by
      simp [stringifyVal]
    rw [hsh, parseVal_cons]
    rw [if_neg (by decide), if_pos rfl]
    exact hQ.2 f rest (by omega) hr
  · -- jobj
    intro kvs hR fuel rest hf hr
    simp only [needVal] at hf
    obtain ⟨f, rfl⟩ : ∃ f, fuel = f + 1 := ⟨fuel - 1, by omega⟩
    have hsh : stringifyVal (.jobj kvs) ++ rest = '{' :: (stringifyObj kvs ++ '}' :: rest) := by
      simp [stringifyVal]
    rw [hsh, parseVal_cons]
    rw [if_neg (by decide), if_neg (by decide), if_pos rfl]
    exact hR.2 f rest (by omega) hr
  · -- JvalList.nil
    constructor
    · intro fuel rest hf hr
      obtain ⟨f, rfl⟩ : ∃ f, fuel = f + 1 := ⟨fuel - 1, by omega⟩
      have hsh : stringifyArrRest .nil ++ ']' :: rest = ']' :: rest := by
        simp [stringifyArrRest]
      rw [hsh, parseArrTail_cons]
      simp
    · intro fuel rest hf hr
      obtain ⟨f, rfl⟩ : ∃ f, fuel = f + 1 := ⟨fuel - 1, by omega⟩
      have hsh : stringifyArr .nil ++ ']' :: rest = ']' :: rest := by
        simp [stringifyArr]
      rw [hsh, parseArrStart_cons]
      simp
  · -- JvalList.cons
    intro v vs hP hQ
    constructor
    · intro fuel rest hf hr
      simp only [needArr] at hf
      obtain ⟨f, rfl⟩ : ∃ f, fuel = f + 1 := ⟨fuel - 1, by omega⟩
      have hsh : stringifyArrRest (.cons v vs) ++ ']' :: rest =
          ',' :: (stringifyVal v ++ (stringifyArrRest vs ++ ']' :: rest)) := by
        simp [stringifyArrRest]
      rw [hsh, parseArrTail_cons]
      rw [if_neg (by decide), if_pos rfl]
      rw [hP f _ (by omega) (ndh_arrRest vs rest)]
      simp [hQ.1 f rest (by omega) hr]
    · intro fuel rest hf hr
      simp only [needArr] at hf
      obtain ⟨f, rfl⟩ : ∃ f, fuel = f + 1 := ⟨fuel - 1, by omega⟩
      obtain ⟨c, cs, hc, hok⟩ := stringify_head_spec v
      have hsh : stringifyArr (.cons v vs) ++ ']' :: rest =
          c :: (cs ++ (stringifyArrRest vs ++ ']' :: rest)) := by
        simp [stringifyArr, hc]
      rw [hsh, parseArrStart_cons]
      rw [if_neg (headOkChar_props hok).2.2.1]
      have hback : c :: (cs ++ (stringifyArrRest vs ++ ']' :: rest)) =
          stringifyVal v ++ (stringifyArrRest vs ++ ']' :: rest) := by rw [hc]; simp
      rw [hback, hP f _ (by omega) (ndh_arrRest vs rest)]
      simp [hQ.1 f rest (by omega) hr]
  · -- JvalObj.nil
    constructor
    · intro fuel rest hf hr
      obtain ⟨f, rfl⟩ : ∃ f, fuel = f + 1 := ⟨fuel - 1, by omega⟩
      have hsh : stringifyObjRest .nil ++ '}' :: rest = '}' :: rest := by
        simp [stringifyObjRest]
      rw [hsh, parseObjTail_cons]
      simp
    · intro fuel rest hf hr
      obtain ⟨f, rfl⟩ : ∃ f, fuel = f + 1 := ⟨fuel - 1, by omega⟩
      have hsh : stringifyObj .nil ++ '}' :: rest = '}' :: rest := by
        simp [stringifyObj]
      rw [hsh, parseObjStart_cons]
      simp
  · -- JvalObj.cons
    intro k v kvs hP hR
    constructor
    · intro fuel rest hf hr
      simp only [needObj] at hf
      obtain ⟨f, rfl⟩ : ∃ f, fuel = f + 1 := ⟨fuel - 1, by omega⟩
      have hsh : stringifyObjRest (.cons k v kvs) ++ '}' :: rest =
          ',' :: (stringifyMember k v ++ (stringifyObjRest kvs ++ '}' :: rest)) := by
        simp [stringifyObjRest]
      rw [hsh, parseObjTail_cons]
      rw [if_neg (by decide), if_pos rfl]
      rw [parseMember_stringifyMember hP k f _ (by omega) (ndh_objRest kvs rest)]
      simp [hR.1 f rest (by omega) hr]
    · intro fuel rest hf hr
      simp only [needObj] at hf
      obtain ⟨f, rfl⟩ : ∃ f, fuel = f + 1 := ⟨fuel - 1, by omega⟩
      have hsh : stringifyObj (.cons k v kvs) ++ '}' :: rest =
          '"' :: ((escList k ++ '"' :: ':' :: stringifyVal v) ++
            (stringifyObjRest kvs ++ '}' :: rest)) := by
        simp [stringifyObj, stringifyMember]
      rw [hsh, parseObjStart_cons]
      rw [if_neg (by decide)]
      have hback : '"' :: ((escList k ++ '"' :: ':' :: stringifyVal v) ++
          (stringifyObjRest kvs ++ '}' :: rest)) =
          stringifyMember k v ++ (stringifyObjRest kvs ++ '}' :: rest) := by
        simp [stringifyMember]
      rw [hback, parseMember_stringifyMember hP k f _ (by omega) (ndh_objRest kvs rest)]
      simp [hR.1 f rest (by omega) hr]

theorem len_arrRest_le (vs : JvalList) :
    (stringifyArrRest vs).length ≤ (stringifyArr vs).length + 1 := by
  cases vs with
  | nil => simp [stringifyArrRest, stringifyArr]
  | cons v vs' => simp [stringifyArrRest, stringifyArr]

theorem len_objRest_le (kvs : JvalObj) :
    (stringifyObjRest kvs).length ≤ (stringifyObj kvs).length + 1 := by
  cases kvs with
  | nil => simp [stringifyObjRest, stringifyObj]
  | cons k v kvs' => simp [stringifyObjRest, stringifyObj]

theorem need_le_len :
    (∀ v, needVal v ≤ 2 * (stringifyVal v).length) ∧
    (∀ vs, needArr vs ≤ 2 * (stringifyArrRest vs).length) ∧
    (∀ kvs, needObj kvs ≤ 2 * (stringifyObjRest kvs).length) := by
  refine jval_mutual_ind ?_ ?_ ?_ ?_ ?_ ?_ ?_ ?_ ?_ ?_
  · simp [needVal, stringifyVal]
  · intro b; cases b <;> simp [needVal, stringifyVal]
  · intro n
    have h := stringify_ne_nil (.jnum n)
    have : 1 ≤ (stringifyVal (.jnum n)).length := by
      cases he : stringifyVal (.jnum n) with
      | nil => exact absurd he h
      | cons c cs => simp
    simp only [needVal]; omega
  · intro s
    have h := stringify_ne_nil (.jstr s)
    have : 1 ≤ (stringifyVal (.jstr s)).length := by
      cases he : stringifyVal (.jstr s) with
      | nil => exact absurd he h
      | cons c cs => simp
    simp only [needVal]; omega
  · intro xs hQ
    have hlen := len_arrRest_le xs
    simp only [needVal, stringifyVal, List.length_cons, List.length_append,
      List.length_singleton]
    omega
  · intro kvs hR
    have hlen := len_objRest_le kvs
    simp only [needVal, stringifyVal, List.length_cons, List.length_append,
      List.length_singleton]
    omega
  · simp [needArr]
  · intro v vs hP hQ
    simp only [needArr, stringifyArrRest, List.length_cons, List.length_append]
    omega
  · simp [needObj]
  · intro k v kvs hP hR
    have hm : (stringifyMember k v).length = (stringifyVal v).length + (escList k).length + 3 := by
      simp [stringifyMember]; omega
    simp only [needObj, stringifyObjRest, List.length_cons, List.length_append, hm]
    omega

/-- The serializer/parser roundtrip at the call sites of the extractor:
`JSON.parse` recovers exactly what `JSON.stringify` produced. -/
theorem jsonParse_stringify (v : Jval) : jsonParse (stringifyVal v) = some v := by
  unfold jsonParse
  have hrt := (rt_all.1 v) (2 * (stringifyVal v).length + 2) [] (by
    have := need_le_len.1 v
    omega) noDigitHead_nil
  rw [List.append_nil] at hrt
  rw [hrt]

/-! ## Trim lemmas -/

theorem jsTrim_eq_self {l : List Char}
    (hh : ∀ c, l.head? = some c → isWsChar c = false)
    (hl : ∀ c, l.getLast? = some c → isWsChar c = false) :
    jsTrim l = l := by
  unfold jsTrim
  rw [dropWhile_eq_self_of_head hh]
  rw [dropWhile_eq_self_of_head (by
    intro c hc
    rw [List.head?_reverse] at hc
    exact hl c hc)]
  exact List.reverse_reverse l

theorem dropWhile_ws_cons_nl (l : List Char) :
    ('\n' :: l).dropWhile isWsChar = l.dropWhile isWsChar := by
  rw [List.dropWhile_cons]
  simp [isWsChar]

theorem jsTrim_wrap {s : List Char} (hne : s ≠ [])
    (hh : ∀ c, s.head? = some c → isWsChar c = false)
    (hl : ∀ c, s.getLast? = some c → isWsChar c = false) :
    jsTrim ('\n' :: (s ++ ['\n'])) = s := by
  unfold jsTrim
  rw [dropWhile_ws_cons_nl]
  obtain ⟨c, cs, rfl⟩ := List.exists_cons_of_ne_nil hne
  rw [List.cons_append, List.dropWhile_cons, if_neg (by simp [hh c rfl])]
  rw [show (c :: (cs ++ ['\n'])).reverse = '\n' :: (c :: cs).reverse by simp]
  rw [dropWhile_ws_cons_nl]
  rw [dropWhile_eq_self_of_head (by
    intro d hd
    rw [List.head?_reverse] at hd
    exact hl d hd)]
  exact List.reverse_reverse _

/-! ## Prefix, suffix and index lemmas -/

theorem isPfx_append_self (p r : List Char) : isPfx p (p ++ r) = true := by
  induction p with
  | nil => rfl
  | cons c cs ih => simp [isPfx, ih]

theorem isPfx_cons_ne {q c : Char} (ps cs : List Char) (h : q ≠ c) :
    isPfx (q :: ps) (c :: cs) = false := by
  simp [isPfx, h]

theorem isPfx_length_le {p s : List Char} (h : isPfx p s = true) :
    p.length ≤ s.length := by
  induction p generalizing s with
  | nil => simp
  | cons c cs ih =>
    cases s with
    | nil => simp [isPfx] at h
    | cons d ds =>
      simp only [isPfx, Bool.and_eq_true] at h
      simpa using ih h.2

theorem strIndexOf?_of_isPfx {pat s : List Char} (h : isPfx pat s = true) :
    strIndexOf? pat s = some 0 := by
  cases s with
  | nil => simp [strIndexOf?, h]
  | cons c t => simp [strIndexOf?, h]

theorem strIndexOf?_append_of_ne_head {q : Char} {ps l s : List Char}
    (h : ∀ c ∈ l, c ≠ q) :
    strIndexOf? (q :: ps) (l ++ s) =
      (strIndexOf? (q :: ps) s).map (· + l.length) := by
  induction l with
  | nil => simp [Option.map_id']
  | cons c t ih =>
    have hc : c ≠ q := h c (by simp)
    rw [List.cons_append, strIndexOf?, if_neg (by
      simp [isPfx_cons_ne ps (t ++ s) (fun e => hc e.symm)])]
    rw [ih (fun x hx => h x (by simp [hx]))]
    cases strIndexOf? (q :: ps) s with
    | none => rfl
    | some i => simp [Option.map]; omega

theorem strLastIndexOf?_eq_none {pat : List Char} (hne : pat ≠ []) :
    ∀ t : List Char, (∀ j, isPfx pat (t.drop j) = false) →
      strLastIndexOf? pat t = none := by
  intro t
  induction t with
  | nil =>
    intro h
    obtain ⟨q, ps, rfl⟩ := List.exists_cons_of_ne_nil hne
    simpa [strLastIndexOf?] using h 0
  | cons c t' ih =>
    intro h
    rw [strLastIndexOf?]
    rw [ih (fun j => by simpa using h (j + 1))]
    simpa using h 0

theorem strLastIndexOf?_eq_some {pat : List Char} (hne : pat ≠ []) :
    ∀ (t : List Char) (i : Nat), isPfx pat (t.drop i) = true →
      (∀ j, i < j → isPfx pat (t.drop j) = false) →
      strLastIndexOf? pat t = some i := by
  intro t
  induction t with
  | nil =>
    intro i hi _
    obtain ⟨q, ps, rfl⟩ := List.exists_cons_of_ne_nil hne
    simp [List.drop_nil, isPfx] at hi
  | cons c t' ih =>
    intro i hi hmax
    cases i with
    | zero =>
      rw [strLastIndexOf?]
      rw [strLastIndexOf?_eq_none hne t' (fun j => by
        simpa using hmax (j + 1) (by omega))]
      simpa using hi
    | succ i' =>
      rw [strLastIndexOf?]
      rw [ih i' (by simpa using hi) (fun j hj => by
        simpa using hmax (j + 1) (by omega))]

theorem strLastIndexOf?_concat (X pat : List Char) (hne : pat ≠ []) :
    strLastIndexOf? pat (X ++ pat) = some X.length := by
  apply strLastIndexOf?_eq_some hne
  · rw [List.drop_left]
    simpa using isPfx_append_self pat []
  · intro j hj
    by_cases hle : j ≤ (X ++ pat).length
    · apply Bool.eq_false_iff.mpr
      intro habs
      have h1 := isPfx_length_le habs
      simp only [List.length_drop, List.length_append] at h1
      obtain ⟨q, ps, rfl⟩ := List.exists_cons_of_ne_nil hne
      simp only [List.length_cons] at h1
      omega
    · rw [List.drop_eq_nil_of_le (by omega)]
      obtain ⟨q, ps, rfl⟩ := List.exists_cons_of_ne_nil hne
      simp [isPfx]

/-! ## Extraction of serialized values in the three claimed forms -/

theorem stringify_head?_not_ws (v : Jval) :
    ∀ c, (stringifyVal v).head? = some c → isWsChar c = false := by
  intro c hc
  obtain ⟨c0, cs0, h0, hok⟩ := stringify_head_spec v
  rw [h0] at hc
  simp only [List.head?_cons, Option.some.injEq] at hc
  exact hc ▸ (headOkChar_props hok).1

theorem stringify_getLast?_not_ws (v : Jval) :
    ∀ c, (stringifyVal v).getLast? = some c → isWsChar c = false := by
  intro c hc
  obtain ⟨c1, h1, hw⟩ := stringify_last_spec v
  rw [h1] at hc
  simp only [Option.some.injEq] at hc
  exact hc ▸ hw

theorem stringify_jsTrim (v : Jval) : jsTrim (stringifyVal v) = stringifyVal v :=
  jsTrim_eq_self (stringify_head?_not_ws v) (stringify_getLast?_not_ws v)

theorem extract_fenced_form (v : Jval) :
    parseClaudeCodeOutput
        (fenceTagChars ++ '\n' :: (stringifyVal v ++ '\n' :: fenceChars)) =
      some v := by
  set S := stringifyVal v with hS
  set I := fenceTagChars ++ '\n' :: (S ++ '\n' :: fenceChars) with hIdef
  have hI : I = (fenceTagChars ++ '\n' :: (S ++ ['\n'])) ++ fenceChars := by
    simp [hIdef]
  have hhead : I.head? = some '`' := by simp [hIdef, fenceTagChars]
  have hlast : I.getLast? = some '`' := by
    rw [hI, List.getLast?_append_of_ne_nil _ (by simp [fenceChars])]
    rfl
  have htrim : jsTrim I = I :=
    jsTrim_eq_self (fun c hc => by rw [hhead] at hc; cases hc; rfl)
      (fun c hc => by rw [hlast] at hc; cases hc; rfl)
  have hg1 : isPfx fenceTagChars I = true := by
    rw [hIdef]; exact isPfx_append_self _ _
  have hg2 : isSfx fenceChars I = true := by
    unfold isSfx
    rw [hI, List.reverse_append]
    exact isPfx_append_self _ _
  have hdrop : I.drop 7 = '\n' :: (S ++ '\n' :: fenceChars) := by
    rw [hIdef, show (7 : Nat) = fenceTagChars.length from rfl, List.drop_left]
  have htake : (I.drop 7).take ((I.drop 7).length - 3) = '\n' :: (S ++ ['\n']) := by
    rw [hdrop]
    have hl3 : ('\n' :: (S ++ '\n' :: fenceChars)).length - 3 = S.length + 2 := by
      simp [fenceChars]
    rw [hl3, List.take_succ_cons, List.take_append 1]
    rfl
  have hinterior : jsTrim ('\n' :: (S ++ ['\n'])) = S :=
    jsTrim_wrap (stringify_ne_nil v) (stringify_head?_not_ws v)
      (stringify_getLast?_not_ws v)
  show parseClaudeCodeOutput I = some v
  unfold parseClaudeCodeOutput
  rw [htrim, if_pos (by rw [hg1, hg2]; rfl)]
  rw [htake, hinterior, hS]
  exact jsonParse_stringify v


theorem extract_prose_form (v : Jval) :
    parseClaudeCodeOutput
        (proseLead ++ fenceTagChars ++ '\n' :: (stringifyVal v ++ '\n' :: fenceChars)) =
      some v := by
  set S := stringifyVal v with hS
  set I := proseLead ++ fenceTagChars ++ '\n' :: (S ++ '\n' :: fenceChars) with hIdef
  have hI : I = (proseLead ++ fenceTagChars ++ '\n' :: (S ++ ['\n'])) ++ fenceChars := by
    simp [hIdef]
  have hIcons : I = 'p' :: (['r', 'o', 's', 'e', '\n'] ++
      (fenceTagChars ++ '\n' :: (S ++ '\n' :: fenceChars))) := by
    simp [hIdef, proseLead]
  have hhead : I.head? = some 'p' := by rw [hIcons]; rfl
  have hlast : I.getLast? = some '`' := by
    rw [hI, List.getLast?_append_of_ne_nil _ (by simp [fenceChars])]
    rfl
  have htrim : jsTrim I = I :=
    jsTrim_eq_self (fun c hc => by rw [hhead] at hc; cases hc; rfl)
      (fun c hc => by rw [hlast] at hc; cases hc; rfl)
  have hg1 : isPfx fenceTagChars I = false := by
    rw [hIcons]
    exact isPfx_cons_ne _ _ (by decide)
  have hg2 : isPfx ['{'] I = false := by
    rw [hIcons]
    exact isPfx_cons_ne _ _ (by decide)
  have hidx : strIndexOf? fenceTagChars I = some 6 := by
    rw [hIdef, List.append_assoc]
    rw [show fenceTagChars = '`' :: ['`', '`', 'j', 's', 'o', 'n'] from rfl]
    rw [strIndexOf?_append_of_ne_head (by decide)]
    rw [strIndexOf?_of_isPfx (isPfx_append_self _ _)]
    rfl
  have hlastidx : strLastIndexOf? fenceChars I = some (S.length + 15) := by
    rw [hI, strLastIndexOf?_concat _ _ (by simp [fenceChars])]
    simp [proseLead, fenceTagChars]
  have hslice : jsSlice 13 (S.length + 15) I = '\n' :: (S ++ ['\n']) := by
    unfold jsSlice
    have hsplit : I = (proseLead ++ fenceTagChars) ++ ('\n' :: (S ++ '\n' :: fenceChars)) := by
      simp [hIdef]
    rw [hsplit, show (13 : Nat) = (proseLead ++ fenceTagChars).length from rfl,
      List.drop_left]
    rw [show S.length + 15 - (proseLead ++ fenceTagChars).length = S.length + 2 by
      simp [proseLead, fenceTagChars]]
    rw [List.take_succ_cons, List.take_append 1]
    rfl
  have hinterior : jsTrim ('\n' :: (S ++ ['\n'])) = S :=
    jsTrim_wrap (stringify_ne_nil v) (stringify_head?_not_ws v)
      (stringify_getLast?_not_ws v)
  show parseClaudeCodeOutput I = some v
  unfold parseClaudeCodeOutput
  rw [htrim, if_neg (by rw [hg1]; simp), if_neg (by rw [hg2]; simp)]
  rw [hidx, hlastidx]
  have hlt : (6 : Nat) + 7 < S.length + 15 := by omega
  simp only [if_pos hlt]
  rw [show (6 : Nat) + 7 = 13 from rfl, hslice, hinterior, hS]
  exact jsonParse_stringify v

theorem extract_bare_form (v : Jval)
    (h : isPfx ['{'] (stringifyVal v) = true ∨ strat3Fires (stringifyVal v) = false) :
    parseClaudeCodeOutput (stringifyVal v) = some v := by
  have htrim := stringify_jsTrim v
  obtain ⟨c, cs, hc, hok⟩ := stringify_head_spec v
  have hg1 : isPfx fenceTagChars (stringifyVal v) = false := by
    rw [hc]
    exact isPfx_cons_ne _ _ (fun e => (headOkChar_props hok).2.1 e.symm)
  unfold parseClaudeCodeOutput
  rw [htrim, if_neg (by rw [hg1]; simp)]
  by_cases h2 : isPfx ['{'] (stringifyVal v) = true
  · rw [if_pos h2]
    exact jsonParse_stringify v
  · rw [if_neg h2]
    have h3 : strat3Fires (stringifyVal v) = false := by
      rcases h with h | h
      · exact absurd h h2
      · exact h
    unfold strat3Fires at h3
    cases hi : strIndexOf? fenceTagChars (stringifyVal v) with
    | none => exact jsonParse_stringify v
    | some i =>
      rw [hi] at h3
      cases hj : strLastIndexOf? fenceChars (stringifyVal v) with
      | none => exact jsonParse_stringify v
      | some j =>
        rw [hj] at h3
        have h3' : ¬ (i + 7 < j) := by simpa using h3
        simpa [h3'] using jsonParse_stringify v

/-! ## Claim theorems: process orchestrator and load precedence -/


/-- C1: the claim says `load` falls back to the legacy workspace root as the
third tier, so with offline mode on (the shipped configuration) and `"w"`
present only in the legacy root it should return the legacy document.  The
code's `else`-chain skips the workspace check whenever offline mode is on, so
the lookup reports not-found while the spec-modelled three-tier search
returns the workspace root: the code contradicts its own step-3 comment
(`检查工作区目录（兼容旧版本）`). -/
theorem C1_load_precedence_code_bug :
    loadWorkflowResolve offlineConfig c1LegacyOnlyFs "w" = none ∧
    c1LegacyOnlyFs StorageRoot.workspace "w" = true ∧
    loadWorkflowSpecResolve offlineConfig c1LegacyOnlyFs "w" =
      some StorageRoot.workspace := by
  refine ⟨?_, rfl, rfl⟩
  rfl

/-- C2 counterexample: from the empty registry, a first generation for
request id `r1` leaves the registry empty (no ProcessRecord is registered),
and a second generation for the same id succeeds with no error instead of
failing with `SpawnError`. -/
theorem C2_counterexample :
    (executeClaudeCodeCLI [] "p".toList 60000 (some "r1") none .sonnet none 0).1 = [] ∧
    (executeClaudeCodeCLI
        ((executeClaudeCodeCLI [] "p".toList 60000 (some "r1") none .sonnet none 0).1)
        "p".toList 60000 (some "r1") none .sonnet none 0).2.success = true ∧
    (executeClaudeCodeCLI
        ((executeClaudeCodeCLI [] "p".toList 60000 (some "r1") none .sonnet none 0).1)
        "p".toList 60000 (some "r1") none .sonnet none 0).2.error = none :=
  ⟨rfl, rfl, rfl⟩

/-- C2 amended: the offline stub never touches the shared registry and never
fails — starting a generation registers no ProcessRecord, and a repeated
invocation with an already-used request id succeeds identically instead of
failing with `SpawnError`; at most one record per id holds only because the
generation paths never insert any. -/
theorem C2_amended (st : ProcessRegistry) (prompt : List Char) (timeoutMs : Nat)
    (requestId : Option String) (wd : Option (List Char)) (model : ClaudeModel)
    (tools : Option (List (List Char))) (elapsed : Nat) :
    (executeClaudeCodeCLI st prompt timeoutMs requestId wd model tools elapsed).1 = st ∧
    (executeClaudeCodeCLI st prompt timeoutMs requestId wd model tools elapsed).2.success
      = true ∧
    (executeClaudeCodeCLI st prompt timeoutMs requestId wd model tools elapsed).2.error
      = none ∧
    (executeClaudeCodeCLIStreaming st prompt timeoutMs requestId wd model tools
      elapsed).1 = st :=
  ⟨rfl, rfl, rfl, rfl⟩

/-- C3 counterexample: a run-to-completion execution with `timeoutMs = 50`
whose (absent) external process has produced nothing still returns
`success = true` with no error, not a TIMEOUT failure. -/
theorem C3_counterexample :
    (executeClaudeCodeCLI [] "p".toList 50 (some "r1") none .sonnet none 700).2.success
      = true ∧
    (executeClaudeCodeCLI [] "p".toList 50 (some "r1") none .sonnet none 700).2.error
      = none :=
  ⟨rfl, rfl⟩

/-- C3 amended: the offline stub enforces no timeout at all — for every
requested timeout the run-to-completion execution returns `success = true`
with `error = none` (never `TIMEOUT`) and cancels nothing, the registry being
left exactly as it was. -/
theorem C3_amended (st : ProcessRegistry) (prompt : List Char) (timeoutMs : Nat)
    (requestId : Option String) (wd : Option (List Char)) (model : ClaudeModel)
    (tools : Option (List (List Char))) (elapsed : Nat) :
    (executeClaudeCodeCLI st prompt timeoutMs requestId wd model tools elapsed).2.success
      = true ∧
    (executeClaudeCodeCLI st prompt timeoutMs requestId wd model tools elapsed).2.error
      = none ∧
    (executeClaudeCodeCLI st prompt timeoutMs requestId wd model tools elapsed).1 = st :=
  ⟨rfl, rfl, rfl⟩

/-- C7: cancelling a request id with no registry entry returns
`{cancelled: false}` with no elapsed-time value, raises nothing, and leaves
the registry untouched — for both `cancelGeneration` and `cancelRefinement`. -/
theorem C7_cancel_missing_noop (st : ProcessRegistry) (requestId : String) (now : Nat)
    (h : registryGet st requestId = none) :
    cancelGeneration st requestId now =
      (st, { cancelled := false, executionTimeMs := none }) ∧
    cancelRefinement st requestId now =
      (st, { cancelled := false, executionTimeMs := none }) := by
  constructor
  · unfold cancelGeneration
    rw [h]
  · unfold cancelRefinement
    rw [h]

/-- Witness for C7 at the empty registry and request id `x`. -/
theorem C7_cancel_missing_noop_witness :
    cancelGeneration [] "x" 0 = ([], { cancelled := false, executionTimeMs := none }) ∧
    cancelRefinement [] "x" 0 = ([], { cancelled := false, executionTimeMs := none }) :=
  C7_cancel_missing_noop [] "x" 0 rfl

/-- C10: both the one-shot and the streaming execution return
`success = true` with the one fixed offline placeholder JSON string as
output and no error, for every combination of prompt, timeout, request id,
working directory, model, allowed tools and elapsed time. -/
theorem C10_offline_stub_constant (st : ProcessRegistry) (prompt : List Char)
    (timeoutMs : Nat) (requestId : Option String) (wd : Option (List Char))
    (model : ClaudeModel) (tools : Option (List (List Char))) (elapsed : Nat) :
    (executeClaudeCodeCLI st prompt timeoutMs requestId wd model tools elapsed).2.success
      = true ∧
    (executeClaudeCodeCLI st prompt timeoutMs requestId wd model tools elapsed).2.output
      = some offlineMockOutput ∧
    (executeClaudeCodeCLI st prompt timeoutMs requestId wd model tools elapsed).2.error
      = none ∧
    (executeClaudeCodeCLIStreaming st prompt timeoutMs requestId wd model tools
      elapsed).2.1.success = true ∧
    (executeClaudeCodeCLIStreaming st prompt timeoutMs requestId wd model tools
      elapsed).2.1.output = some offlineMockOutput ∧
    (executeClaudeCodeCLIStreaming st prompt timeoutMs requestId wd model tools
      elapsed).2.1.error = none :=
  ⟨rfl, rfl, rfl, rfl, rfl, rfl⟩

/-! ## Claim theorems: result extractor roundtrip -/


/-- C4 counterexample: the claim asserts that extracting the bare form
`stringify(v)` yields `v` for every JSON value `v`; for the string value
`"a ```json b ``` c"` the extractor's third strategy fires on the fence
inside the serialized payload, its inner parse fails, and the extractor
returns the no-result value instead of the string. -/
theorem C4_counterexample :
    parseClaudeCodeOutput (stringifyVal c4BadValue) = none := by
  have h : stringifyVal c4BadValue =
      '"' :: (['a', ' ', '`', '`', '`', 'j', 's', 'o', 'n', ' ', 'b', ' ', '`', '`',
        '`', ' ', 'c'] ++ ['"']) := by
    simp [c4BadValue, stringifyVal, escList, escChar]
  rw [h]
  rfl

/-- C4 amended: for every JSON value `v`, extraction from the JSON-fenced
form and from the prose-prefixed form yields `v`; extraction from the bare
form `stringify(v)` yields `v` provided the serialization starts with `{` or
does not contain a json-tagged fence opener followed by a later closing
fence (otherwise strategy 3 hijacks the bare form, as in the
counterexample). -/
theorem C4_roundtrip_amended (v : Jval) :
    parseClaudeCodeOutput
        (fenceTagChars ++ '\n' :: (stringifyVal v ++ '\n' :: fenceChars)) = some v ∧
    parseClaudeCodeOutput
        (proseLead ++ fenceTagChars ++ '\n' :: (stringifyVal v ++ '\n' :: fenceChars))
      = some v ∧
    (isPfx ['{'] (stringifyVal v) = true ∨ strat3Fires (stringifyVal v) = false →
      parseClaudeCodeOutput (stringifyVal v) = some v) :=
  ⟨extract_fenced_form v, extract_prose_form v, fun h => extract_bare_form v h⟩

/-- Witness for C4 amended at the object value `{"a":"x"}`, discharging the
bare-form hypothesis through its left disjunct. -/
theorem C4_roundtrip_amended_witness :
    parseClaudeCodeOutput (stringifyVal c4GoodValue) = some c4GoodValue :=
  (C4_roundtrip_amended c4GoodValue).2.2
    (Or.inl (by
      simp [c4GoodValue, stringifyVal, stringifyObj, stringifyObjRest,
        stringifyMember, escList, escChar, isPfx]))

/-! ## Claim theorems: strategy order -/


/-- C5: the extractor applies the four strategies in their fixed order with
the first matching guard determining the result — the source translation is
extensionally equal to the ordered guard/action table `extractSpec`; and on a
payload containing fence-like text the strategy-3 interior runs to the last
closing fence, recovering the full object (a first-closing-fence rule would
truncate it). -/
theorem C5_strategy_order :
    (∀ s : List Char, parseClaudeCodeOutput s = extractSpec s) ∧
    parseClaudeCodeOutput c5DemoInput =
      some (.jobj (.cons ['a'] (.jstr ['b', '`', '`', '`', 'c']) .nil)) := by
  constructor
  · intro s
    unfold parseClaudeCodeOutput extractSpec extractStrategies strat1Fires
      strat3Fires strat3Action
    by_cases h1 : (isPfx fenceTagChars (jsTrim s) && isSfx fenceChars (jsTrim s)) = true
    · simp [List.find?, h1]
    · simp only [Bool.not_eq_true] at h1
      by_cases h2 : isPfx ['{'] (jsTrim s) = true
      · simp [List.find?, h1, h2]
      · simp only [Bool.not_eq_true] at h2
        cases hi : strIndexOf? fenceTagChars (jsTrim s) with
        | none => simp [List.find?, h1, h2, hi]
        | some i =>
          cases hj : strLastIndexOf? fenceChars (jsTrim s) with
          | none => simp [List.find?, h1, h2, hi, hj]
          | some j =>
            by_cases hlt : i + 7 < j
            · simp [List.find?, h1, h2, hi, hj, hlt]
            · simp [List.find?, h1, h2, hi, hj, hlt]
  · rfl

/-! ## Claim theorems: extractor failure mode -/


/-- C6: whenever every strategy's parse attempt fails (the fence-stripped
interior, the trimmed string, and any strategy-3 interior all parse to the
no-result value), the extractor returns the no-result value rather than
raising; in particular it does so on `not json at all` and on the
unterminated fence ```` ```json\n{ ````. -/
theorem C6_parse_failure_no_result :
    (∀ s : List Char,
      jsonParse (jsTrim (((jsTrim s).drop 7).take (((jsTrim s).drop 7).length - 3)))
        = none →
      jsonParse (jsTrim s) = none →
      (∀ i j, strIndexOf? fenceTagChars (jsTrim s) = some i →
        strLastIndexOf? fenceChars (jsTrim s) = some j →
        jsonParse (jsTrim (jsSlice (i + 7) j (jsTrim s))) = none) →
      parseClaudeCodeOutput s = none) ∧
    parseClaudeCodeOutput notJsonAtAll = none ∧
    parseClaudeCodeOutput unterminatedFence = none := by
  refine ⟨?_, rfl, rfl⟩
  intro s h1 h2 h3
  unfold parseClaudeCodeOutput
  by_cases hg1 : (isPfx fenceTagChars (jsTrim s) && isSfx fenceChars (jsTrim s)) = true
  · rw [if_pos hg1]
    exact h1
  · rw [if_neg hg1]
    by_cases hg2 : isPfx ['{'] (jsTrim s) = true
    · rw [if_pos hg2]
      exact h2
    · rw [if_neg hg2]
      cases hi : strIndexOf? fenceTagChars (jsTrim s) with
      | none => exact h2
      | some i =>
        cases hj : strLastIndexOf? fenceChars (jsTrim s) with
        | none => exact h2
        | some j =>
          by_cases hlt : i + 7 < j
          · simpa [hlt] using h3 i j hi hj
          · simpa [hlt] using h2

/-- Witness for C6 at the input `zzz`, discharging all three failure
hypotheses by evaluation. -/
theorem C6_parse_failure_no_result_witness :
    parseClaudeCodeOutput ['z', 'z', 'z'] = none := by
  refine C6_parse_failure_no_result.1 ['z', 'z', 'z'] rfl rfl ?_
  intro i j hi hj
  cases hi


theorem passEmits_cons (fs : ListingFs) (cfg : OfflineConfig) (dt : DirectoryType)
    (f : List Char × Bool) (rest : List (List Char × Bool)) (blocked : List (List Char)) :
    passEmits fs cfg dt (f :: rest) blocked =
      if (f.2 && isSfx jsonExt f.1) = true then
        if eraseFirst jsonExt f.1 ∈ blocked then passEmits fs cfg dt rest blocked
        else
          match fs.readDoc (readRootOfType cfg dt) (eraseFirst jsonExt f.1) with
          | none => passEmits fs cfg dt rest blocked
          | some _ =>
            eraseFirst jsonExt f.1 ::
              passEmits fs cfg dt rest (blocked ++ [eraseFirst jsonExt f.1])
      else passEmits fs cfg dt rest blocked := by
  conv_lhs => rw [passEmits.eq_def]

theorem pass_fold_decomp (fs : ListingFs) (cfg : OfflineConfig) (nowIso : List Char)
    (dt : DirectoryType) :
    ∀ (files : List (List Char × Bool)) (ws : List WorkflowEntry) (ps : List (List Char)),
      ∃ new : List WorkflowEntry,
        files.foldl (processListedFile fs cfg nowIso dt) (ws, ps)
          = (ws ++ new, ps ++ new.map (·.id)) ∧
        new.map (·.id) = passEmits fs cfg dt files ps ∧
        ∀ e ∈ new, e.source = dt := by
  intro files
  induction files with
  | nil =>
    intro ws ps
    exact ⟨[], by simp, by simp [passEmits], by simp⟩
  | cons f rest ih =>
    intro ws ps
    by_cases hjson : (f.2 && isSfx jsonExt f.1) = true
    · by_cases hmem : eraseFirst jsonExt f.1 ∈ ps
      · obtain ⟨new, h1, h2, h3⟩ := ih ws ps
        refine ⟨new, ?_, ?_, h3⟩
        · rw [List.foldl_cons]
          rw [show processListedFile fs cfg nowIso dt (ws, ps) f = (ws, ps) by
            unfold processListedFile
            rw [if_pos hjson, if_pos hmem]]
          exact h1
        · rw [passEmits_cons, if_pos hjson, if_pos hmem]
          exact h2
      · cases hdoc : fs.readDoc (readRootOfType cfg dt) (eraseFirst jsonExt f.1) with
        | none =>
          obtain ⟨new, h1, h2, h3⟩ := ih ws ps
          refine ⟨new, ?_, ?_, h3⟩
          · rw [List.foldl_cons]
            rw [show processListedFile fs cfg nowIso dt (ws, ps) f = (ws, ps) by
              unfold processListedFile
              rw [if_pos hjson, if_neg hmem, hdoc]]
            exact h1
          · rw [passEmits_cons, if_pos hjson, if_neg hmem, hdoc]
            exact h2
        | some doc =>
          obtain ⟨new, h1, h2, h3⟩ :=
            ih (ws ++ [mkWorkflowEntry (eraseFirst jsonExt f.1) doc nowIso dt])
              (ps ++ [eraseFirst jsonExt f.1])
          refine ⟨mkWorkflowEntry (eraseFirst jsonExt f.1) doc nowIso dt :: new, ?_, ?_, ?_⟩
          · rw [List.foldl_cons]
            rw [show processListedFile fs cfg nowIso dt (ws, ps) f =
                (ws ++ [mkWorkflowEntry (eraseFirst jsonExt f.1) doc nowIso dt],
                 ps ++ [eraseFirst jsonExt f.1]) by
              unfold processListedFile
              rw [if_pos hjson, if_neg hmem, hdoc]]
            rw [h1]
            simp [mkWorkflowEntry]
          · rw [passEmits_cons, if_pos hjson, if_neg hmem, hdoc]
            simp only [List.map_cons, h2, mkWorkflowEntry]
          · intro e he
            rcases List.mem_cons.mp he with rfl | he
            · simp [mkWorkflowEntry]
            · exact h3 e he
    · obtain ⟨new, h1, h2, h3⟩ := ih ws ps
      refine ⟨new, ?_, ?_, h3⟩
      · rw [List.foldl_cons]
        rw [show processListedFile fs cfg nowIso dt (ws, ps) f = (ws, ps) by
          unfold processListedFile
          rw [if_neg hjson]]
        exact h1
      · rw [passEmits_cons, if_neg hjson]
        exact h2

theorem mem_passEmits (fs : ListingFs) (cfg : OfflineConfig) (dt : DirectoryType) :
    ∀ (files : List (List Char × Bool)) (B : List (List Char)) (x : List Char),
      x ∈ passEmits fs cfg dt files B ↔
        x ∈ passEmits fs cfg dt files [] ∧ x ∉ B := by
  intro files
  induction files with
  | nil => intro B x; simp [passEmits]
  | cons f rest ih =>
    intro B x
    by_cases hjson : (f.2 && isSfx jsonExt f.1) = true
    · cases hdoc : fs.readDoc (readRootOfType cfg dt) (eraseFirst jsonExt f.1) with
      | none =>
        by_cases hw : eraseFirst jsonExt f.1 ∈ B
        · rw [passEmits_cons, if_pos hjson, if_pos hw]
          rw [passEmits_cons, if_pos hjson, if_neg (List.not_mem_nil _), hdoc]
          exact ih B x
        · rw [passEmits_cons, if_pos hjson, if_neg hw, hdoc]
          rw [passEmits_cons, if_pos hjson, if_neg (List.not_mem_nil _), hdoc]
          exact ih B x
      | some doc =>
        by_cases hw : eraseFirst jsonExt f.1 ∈ B
        · rw [passEmits_cons, if_pos hjson, if_pos hw]
          rw [passEmits_cons, if_pos hjson, if_neg (List.not_mem_nil _), hdoc]
          rw [ih B x]
          constructor
          · rintro ⟨hS, hB⟩
            refine ⟨List.mem_cons.mpr (Or.inr ?_), hB⟩
            rw [ih ([] ++ [eraseFirst jsonExt f.1]) x]
            exact ⟨hS, by
              intro hx
              rw [List.nil_append, List.mem_singleton] at hx
              exact hB (hx ▸ hw)⟩
          · rintro ⟨hmem, hB⟩
            rcases List.mem_cons.mp hmem with rfl | hmem'
            · exact absurd hw hB
            · rw [ih ([] ++ [eraseFirst jsonExt f.1]) x] at hmem'
              exact ⟨hmem'.1, hB⟩
        · rw [passEmits_cons, if_pos hjson, if_neg hw, hdoc]
          rw [passEmits_cons, if_pos hjson, if_neg (List.not_mem_nil _), hdoc]
          constructor
          · intro hmem
            rcases List.mem_cons.mp hmem with rfl | hmem'
            · exact ⟨List.mem_cons_self _ _, hw⟩
            · rw [ih (B ++ [eraseFirst jsonExt f.1]) x] at hmem'
              obtain ⟨hS, hnB⟩ := hmem'
              rw [List.mem_append] at hnB
              push_neg at hnB
              refine ⟨List.mem_cons.mpr (Or.inr ?_), hnB.1⟩
              rw [ih ([] ++ [eraseFirst jsonExt f.1]) x]
              refine ⟨hS, ?_⟩
              rw [List.nil_append]
              exact hnB.2
          · rintro ⟨hmem, hB⟩
            rcases List.mem_cons.mp hmem with rfl | hmem'
            · exact List.mem_cons_self _ _
            · rw [ih ([] ++ [eraseFirst jsonExt f.1]) x] at hmem'
              refine List.mem_cons.mpr (Or.inr ?_)
              rw [ih (B ++ [eraseFirst jsonExt f.1]) x]
              refine ⟨hmem'.1, ?_⟩
              rw [List.mem_append]
              push_neg
              refine ⟨hB, ?_⟩
              have := hmem'.2
              rw [List.nil_append] at this
              exact this
    · rw [passEmits_cons, if_neg hjson, passEmits_cons, if_neg hjson]
      exact ih B x

theorem nodup_passEmits (fs : ListingFs) (cfg : OfflineConfig) (dt : DirectoryType) :
    ∀ (files : List (List Char × Bool)) (B : List (List Char)),
      B.Nodup → (B ++ passEmits fs cfg dt files B).Nodup := by
  intro files
  induction files with
  | nil => intro B hB; simpa [passEmits] using hB
  | cons f rest ih =>
    intro B hB
    by_cases hjson : (f.2 && isSfx jsonExt f.1) = true
    · cases hdoc : fs.readDoc (readRootOfType cfg dt) (eraseFirst jsonExt f.1) with
      | none =>
        by_cases hw : eraseFirst jsonExt f.1 ∈ B
        · rw [passEmits_cons, if_pos hjson, if_pos hw]
          exact ih B hB
        · rw [passEmits_cons, if_pos hjson, if_neg hw, hdoc]
          exact ih B hB
      | some doc =>
        by_cases hw : eraseFirst jsonExt f.1 ∈ B
        · rw [passEmits_cons, if_pos hjson, if_pos hw]
          exact ih B hB
        · rw [passEmits_cons, if_pos hjson, if_neg hw, hdoc]
          have : (B ++ (eraseFirst jsonExt f.1 ::
              passEmits fs cfg dt rest (B ++ [eraseFirst jsonExt f.1]))) =
              ((B ++ [eraseFirst jsonExt f.1]) ++
                passEmits fs cfg dt rest (B ++ [eraseFirst jsonExt f.1])) := by
            simp
          rw [this]
          exact ih (B ++ [eraseFirst jsonExt f.1]) (by
            simp [List.nodup_append, hB, hw])
    · rw [passEmits_cons, if_neg hjson]
      exact ih B hB

theorem loadDir_decomp (fs : ListingFs) (cfg : OfflineConfig) (nowIso : List Char)
    (dt : DirectoryType) (ws : List WorkflowEntry) (ps : List (List Char)) :
    ∃ new : List WorkflowEntry,
      loadWorkflowsFromDirectory fs cfg nowIso dt (ws, ps)
        = (ws ++ new, ps ++ new.map (·.id)) ∧
      new.map (·.id) = passScan fs cfg dt ps ∧
      ∀ e ∈ new, e.source = dt := by
  unfold loadWorkflowsFromDirectory passScan
  cases fs.listDir (listRootOfType cfg dt) with
  | none => exact ⟨[], by simp, by simp, by simp⟩
  | some files => exact pass_fold_decomp fs cfg nowIso dt files ws ps

theorem scanIds_eq_passScan (fs : ListingFs) (cfg : OfflineConfig)
    (nowIso : List Char) (dt : DirectoryType) :
    scanIds fs cfg nowIso dt = passScan fs cfg dt [] := by
  obtain ⟨new, h1, h2, _⟩ := loadDir_decomp fs cfg nowIso dt [] []
  unfold scanIds
  rw [h1]
  simpa using h2

theorem mem_passScan (fs : ListingFs) (cfg : OfflineConfig) (dt : DirectoryType)
    (B : List (List Char)) (x : List Char) :
    x ∈ passScan fs cfg dt B ↔ x ∈ passScan fs cfg dt [] ∧ x ∉ B := by
  unfold passScan
  cases fs.listDir (listRootOfType cfg dt) with
  | none => simp
  | some files => exact mem_passEmits fs cfg dt files B x

theorem nodup_passScan (fs : ListingFs) (cfg : OfflineConfig) (dt : DirectoryType)
    (B : List (List Char)) (hB : B.Nodup) : (B ++ passScan fs cfg dt B).Nodup := by
  unfold passScan
  cases fs.listDir (listRootOfType cfg dt) with
  | none => simpa using hB
  | some files => exact nodup_passEmits fs cfg dt files B hB

theorem passes_fold_decomp (fs : ListingFs) (cfg : OfflineConfig) (nowIso : List Char) :
    ∀ (dts : List DirectoryType) (ws : List WorkflowEntry) (ps : List (List Char)),
      ps = ws.map (·.id) →
      ∃ new : List WorkflowEntry,
        dts.foldl (fun acc dt => loadWorkflowsFromDirectory fs cfg nowIso dt acc) (ws, ps)
          = (ws ++ new, ps ++ new.map (·.id)) ∧
        (∀ e ∈ new, e.id ∉ ps ∧
          dts.find? (fun dt => decide (e.id ∈ scanIds fs cfg nowIso dt)) = some e.source) ∧
        (∀ dt ∈ dts, ∀ x ∈ scanIds fs cfg nowIso dt, x ∈ ps ++ new.map (·.id)) := by
  intro dts
  induction dts with
  | nil =>
    intro ws ps hinv
    exact ⟨[], by simp, by simp, by simp⟩
  | cons dt rest ih =>
    intro ws ps hinv
    obtain ⟨n1, h1, h2, h3⟩ := loadDir_decomp fs cfg nowIso dt ws ps
    have hinv' : ps ++ n1.map (·.id) = (ws ++ n1).map (·.id) := by
      rw [hinv]; simp
    obtain ⟨n2, g1, g2, g3⟩ := ih (ws ++ n1) (ps ++ n1.map (·.id)) hinv'
    refine ⟨n1 ++ n2, ?_, ?_, ?_⟩
    · rw [List.foldl_cons, h1, g1]
      simp
    · intro e he
      rcases List.mem_append.mp he with he1 | he2
      · have hid : e.id ∈ n1.map (·.id) := List.mem_map_of_mem _ he1
        rw [h2] at hid
        have hm := (mem_passScan fs cfg dt ps e.id).mp hid
        have hscan : e.id ∈ scanIds fs cfg nowIso dt := by
          rw [scanIds_eq_passScan]; exact hm.1
        refine ⟨hm.2, ?_⟩
        rw [List.find?_cons_of_pos _ (by simpa using hscan)]
        rw [h3 e he1]
      · obtain ⟨hnotin, hfind⟩ := g2 e he2
        have hnp : e.id ∉ ps := fun hx => hnotin (List.mem_append.mpr (Or.inl hx))
        refine ⟨hnp, ?_⟩
        have hnd : e.id ∉ scanIds fs cfg nowIso dt := by
          intro hx
          rw [scanIds_eq_passScan] at hx
          have : e.id ∈ passScan fs cfg dt ps :=
            (mem_passScan fs cfg dt ps e.id).mpr ⟨hx, hnp⟩
          rw [← h2] at this
          exact hnotin (List.mem_append.mpr (Or.inr this))
        rw [List.find?_cons_of_neg _ (by simpa using hnd)]
        exact hfind
    · intro dt' hdt' x hx
      rcases List.mem_cons.mp hdt' with rfl | hrest
      · by_cases hps : x ∈ ps
        · exact List.mem_append.mpr (Or.inl hps)
        · have : x ∈ passScan fs cfg dt' ps := by
            refine (mem_passScan fs cfg dt' ps x).mpr ⟨?_, hps⟩
            rw [← scanIds_eq_passScan fs cfg nowIso dt']
            exact hx
          rw [← h2] at this
          refine List.mem_append.mpr (Or.inr ?_)
          simpa using Or.inl this
      · have := g3 dt' hrest x hx
        rcases List.mem_append.mp this with h | h
        · rcases List.mem_append.mp h with h' | h'
          · exact List.mem_append.mpr (Or.inl h')
          · refine List.mem_append.mpr (Or.inr ?_)
            simpa using Or.inl h'
        · refine List.mem_append.mpr (Or.inr ?_)
          simpa using Or.inr h

theorem passes_fold_nodup (fs : ListingFs) (cfg : OfflineConfig) (nowIso : List Char) :
    ∀ (dts : List DirectoryType) (ws : List WorkflowEntry) (ps : List (List Char)),
      ps.Nodup →
      (dts.foldl (fun acc dt => loadWorkflowsFromDirectory fs cfg nowIso dt acc)
        (ws, ps)).2.Nodup := by
  intro dts
  induction dts with
  | nil => intro ws ps h; simpa using h
  | cons dt rest ih =>
    intro ws ps h
    obtain ⟨n1, h1, h2, _⟩ := loadDir_decomp fs cfg nowIso dt ws ps
    rw [List.foldl_cons, h1]
    refine ih _ _ ?_
    rw [h2]
    exact nodup_passScan fs cfg dt ps h

/-! ## Sort lemmas -/

theorem insertByDateDesc_perm (dateMs : List Char → Int) (e : WorkflowEntry) :
    ∀ l : List WorkflowEntry, List.Perm (insertByDateDesc dateMs e l) (e :: l) := by
  intro l
  induction l with
  | nil => rfl
  | cons x xs ih =>
    unfold insertByDateDesc
    by_cases h : dateMs x.updatedAt < dateMs e.updatedAt
    · rw [if_pos h]
    · rw [if_neg h]
      exact (List.Perm.cons x ih).trans (List.Perm.swap e x xs)

theorem sortByDateDesc_perm (dateMs : List Char → Int) :
    ∀ l : List WorkflowEntry, List.Perm (sortByDateDesc dateMs l) l := by
  intro l
  induction l with
  | nil => rfl
  | cons x xs ih =>
    unfold sortByDateDesc
    rw [List.foldr_cons]
    exact (insertByDateDesc_perm dateMs x _).trans (List.Perm.cons x ih)

theorem insertByDateDesc_pairwise (dateMs : List Char → Int) (e : WorkflowEntry) :
    ∀ l : List WorkflowEntry,
      List.Pairwise (fun a b => dateMs b.updatedAt ≤ dateMs a.updatedAt) l →
      List.Pairwise (fun a b => dateMs b.updatedAt ≤ dateMs a.updatedAt)
        (insertByDateDesc dateMs e l) := by
  intro l
  induction l with
  | nil => intro _; simp [insertByDateDesc]
  | cons x xs ih =>
    intro hp
    rw [List.pairwise_cons] at hp
    unfold insertByDateDesc
    by_cases h : dateMs x.updatedAt < dateMs e.updatedAt
    · rw [if_pos h]
      refine List.pairwise_cons.mpr ⟨?_, List.pairwise_cons.mpr hp⟩
      intro y hy
      rcases List.mem_cons.mp hy with rfl | hy'
      · omega
      · have := hp.1 y hy'
        omega
    · rw [if_neg h]
      refine List.pairwise_cons.mpr ⟨?_, ih hp.2⟩
      intro y hy
      have hy2 := (insertByDateDesc_perm dateMs e xs).mem_iff.mp hy
      rcases List.mem_cons.mp hy2 with rfl | hy'
      · omega
      · exact hp.1 y hy'

theorem sortByDateDesc_pairwise (dateMs : List Char → Int) (l : List WorkflowEntry) :
    List.Pairwise (fun a b => dateMs b.updatedAt ≤ dateMs a.updatedAt)
      (sortByDateDesc dateMs l) := by
  induction l with
  | nil => simp [sortByDateDesc]
  | cons x xs ih =>
    unfold sortByDateDesc
    rw [List.foldr_cons]
    exact insertByDateDesc_pairwise dateMs x _ ih

/-! ## Claim theorems: listing de-duplication and ordering -/


/-- C8: the claim's de-duplication example fails on the code.  With the
shipped offline configuration, root A (the active offline directory) holding
`{x, y}` and root B (the legacy workspace directory) holding `{y, z}`, the
claim says the merged listing is exactly `{x, y, z}` with `y` sourced from
A; but the source's `workspace` pass calls `getWorkflowsDirectory()`, which
resolves the current storage directory, so no pass ever enumerates the
legacy root: the listing is only `{x, y}` and `z` never appears even though
`z.json` is present in root B.  The spec-modelled listing, whose `workspace`
pass reads the root the source's own comment names, yields exactly
`x, y, z` with `y` sourced from the first-scanned root, as the claim
states. -/
theorem C8_listing_dedup_code_bug :
    (loadWorkflowList fsRootsAB offlineConfig ['t'] isoDateKey).map (·.id)
      = [['x'], ['y']] ∧
    fsRootsAB.listDir StorageRoot.workspace
      = some [(['y', '.', 'j', 's', 'o', 'n'], true),
              (['z', '.', 'j', 's', 'o', 'n'], true)] ∧
    (loadWorkflowListSpec fsRootsAB offlineConfig ['t'] isoDateKey).map
        (fun e => (e.id, e.source))
      = [(['x'], DirectoryType.current), (['y'], DirectoryType.current),
         (['z'], DirectoryType.workspace)] :=
  ⟨rfl, rfl, rfl⟩


/-- C9: the merged listing is ordered by the last-updated timestamp,
descending (every adjacent pair satisfies newest-first, for every oracle and
timestamp function); documents stamped 2024-01-01, 2024-06-01 and 2024-03-01
come back in the order 2024-06-01, 2024-03-01, 2024-01-01. -/
theorem C9_ordering (fs : ListingFs) (cfg : OfflineConfig) (nowIso : List Char)
    (dateMs : List Char → Int) :
    List.Pairwise (fun a b => dateMs b.updatedAt ≤ dateMs a.updatedAt)
      (loadWorkflowList fs cfg nowIso dateMs) ∧
    (loadWorkflowList fsDates offlineConfig ['t'] isoDateKey).map (·.updatedAt)
      = [['2', '0', '2', '4', '-', '0', '6', '-', '0', '1'],
         ['2', '0', '2', '4', '-', '0', '3', '-', '0', '1'],
         ['2', '0', '2', '4', '-', '0', '1', '-', '0', '1']] := by
  constructor
  · unfold loadWorkflowList
    exact sortByDateDesc_pairwise dateMs _
  · rfl
